import Mathlib

/-!
FRVT morph validation test driver: `util.cpp`

A shallow embedding of `splitInputFile`, `readImage` and `split` from
`morph/validation/testdriver/src/util.cpp` together with `Image` from
`frvt_structs.h`, and the properties of the partitioner, of the PPM reader and
of the tokenizer that follow from the code.

Conventions of the embedding:

* a file is the list of its bytes, each byte written as a `Char`;
* paths are `String`s;
* `int` is a 32-bit two's complement integer and `long` (the type of `numLines`,
  the `difference_type` of `istreambuf_iterator<char>`) is 64 bits wide; values
  of both are carried as `Int`, conversions to `int` and `uint32_t` are written
  out with `toInt32` and `toUInt32`;
* behaviour that C++ leaves undefined (integer division by zero, overflow of a
  signed `int` operation) is a `Fault`;
* the loop of `split`, whose index is an `unsigned int`, takes fuel, and a call
  that does not return is `none`.
-/

namespace FRVT_MORPH

/-! ## Machine integers -/

/-- Conversion of an integer value to `int` (two's complement, modulo `2^32`). -/
def toInt32 (x : Int) : Int := (x + 2147483648) % 4294967296 - 2147483648

/-- Conversion of an integer value to `uint32_t` (modulo `2^32`). -/
def toUInt32 (x : Int) : Int := x % 4294967296

/-- Largest value of an `int`. -/
def INT_MAX : Int := 2147483647

/-- Undefined behaviour reached by the code. -/
inductive Fault where
  | divisionByZero
  | signedOverflow
  deriving DecidableEq, Repr

/-- Return codes of the test driver (`SUCCESS` and `FAILURE` of `frvt/util.h`). -/
inductive RetCode where
  | SUCCESS
  | FAILURE
  deriving DecidableEq, Repr

/-! ## Input streams -/

/-- An `std::ifstream` that was opened successfully: the bytes not yet read and the
`eofbit` and `failbit` of its state. -/
structure IStream where
  buf : List Char
  eofbit : Bool
  failbit : Bool
  deriving DecidableEq, Repr

/-- The stream right after opening a file with the given content. -/
def IStream.opened (content : List Char) : IStream := ⟨content, false, false⟩

/-- Value of `stream.good()`. -/
def IStream.good (s : IStream) : Bool := !s.eofbit && !s.failbit

/-- The characters before the first line feed, and the characters after it when there
is one (`none` when the end of the input comes first). -/
def untilNewline : List Char → List Char × Option (List Char)
  | [] => ([], none)
  | c :: cs =>
    if c = '\n' then ([], some cs)
    else ((untilNewline cs).1.cons c, (untilNewline cs).2)

/-- Function `std::getline(stream, line)`: the extracted line when the call leaves the
stream without `failbit` (the condition tested by `if (getline(...))`), and the stream
after the call.  A stream that is not good fails at once; otherwise characters are
extracted up to and including the next line feed, or up to the end of the input, which
sets `eofbit`, and also `failbit` when nothing at all was extracted. -/
def getline (s : IStream) : Option (List Char) × IStream :=
  if s.good then
    match untilNewline s.buf with
    | (line, some rest) => (some line, { s with buf := rest })
    | (line, none) =>
      if line = [] then (none, ⟨[], true, true⟩)
      else (some line, ⟨[], true, false⟩)
  else (none, { s with failbit := true })

/-! ## splitInputFile -/

/-- Constant `inputFileStem` of `util.cpp`. -/
def inputFileStem : String := "input.txt."

/-- The inner loop of `splitInputFile`: at most `k` times, read a line from the input
and write it followed by `endl` to the output; stop at the first `getline` that fails.
Returns the input stream and the extended output.  Writing to an output file that was
opened is taken to succeed. -/
def copyLines : Nat → IStream → List Char → IStream × List Char
  | 0, s, out => (s, out)
  | k + 1, s, out =>
    match getline s with
    | (some line, s') => copyLines k s' (out ++ line ++ ['\n'])
    | (none, s') => (s', out)

/-- What the outer loop of `splitInputFile` works on: the input stream, the caller's
`fileVector`, and the output files created so far with their contents, in order of
creation. -/
structure SplitState where
  input : IStream
  fileVector : List String
  written : List (String × List Char)
  deriving DecidableEq, Repr

/-- The loop `for (int i = 0; i < numForks; i++)` of `splitInputFile`, with `todo`
iterations left, the next one at index `i`.  `canOpen` tells which output paths can be
opened for writing.  The bound `numLinesPerFork + 1` of the inner loop is an `int`
addition, which overflows when `numLinesPerFork` is `INT_MAX`. -/
def forkLoop (canOpen : String → Bool) (outputDir : String) (numLinesPerFork : Int) :
    Nat → Nat → SplitState → Except Fault (RetCode × SplitState)
  | 0, _, st => .ok (RetCode.SUCCESS, st)
  | todo + 1, i, st =>
    let filepath := outputDir ++ "/" ++ inputFileStem ++ toString i
    if canOpen filepath then
      if numLinesPerFork = INT_MAX then .error Fault.signedOverflow
      else
        let r := copyLines numLinesPerFork.toNat st.input []
        forkLoop canOpen outputDir numLinesPerFork todo (i + 1)
          { input := r.1
            fileVector := st.fileVector ++ [filepath]
            written := st.written ++ [(filepath, r.2)] }
    else .ok (RetCode.FAILURE, st)

/-- Everything `splitInputFile` hands back: the returned code, the values of the
reference parameters `numForks` and `fileVector` after the call, and the output files
it created with their contents, in order of creation. -/
structure SplitResult where
  ret : RetCode
  numForks : Int
  fileVector : List String
  written : List (String × List Char)
  deriving DecidableEq, Repr

/-- Function `splitInputFile` of `util.cpp`.  `inputStream` is what opening `inputFile`
gives: `none` when it cannot be opened, otherwise its content.  `numForks` is the
value of the `int` passed by reference. -/
def splitInputFile (inputStream : Option (List Char)) (canOpen : String → Bool)
    (outputDir : String) (numForks : Int) (fileVector : List String) :
    Except Fault SplitResult :=
  match inputStream with
  | none => .ok ⟨RetCode.FAILURE, numForks, fileVector, []⟩
  | some content =>
    let numLines : Int := (content.count '\n' : Nat)
    let numForks1 := if numLines < toUInt32 numForks then toInt32 numLines else numForks
    if numForks1 = 0 then .error Fault.divisionByZero
    else
      let numLinesPerFork :=
        toInt32 (numLines.tdiv numForks1 + (if numLines.tmod numForks1 > 0 then 1 else 0))
      if numLinesPerFork = 0 then .error Fault.divisionByZero
      else
        let numForks2 :=
          toInt32 (numLines.tdiv numLinesPerFork +
            (if numLines.tmod numLinesPerFork > 0 then 1 else 0))
        match forkLoop canOpen outputDir numLinesPerFork numForks2.toNat 0
            ⟨IStream.opened content, fileVector, []⟩ with
        | .error f => .error f
        | .ok (ret, st) => .ok ⟨ret, numForks2, st.fileVector, st.written⟩

/-! ## Vocabulary of the specification -/

/-- A manifest made of the given lines, each terminated by a line feed. -/
def joinLines (ls : List (List Char)) : List Char :=
  (ls.map (fun l => l ++ ['\n'])).flatten

/-- Ceiling of `n / d`. -/
def ceilDiv (n d : Nat) : Nat := (n + d - 1) / d

/-- Path of the partition with index `i`. -/
def partitionPath (outputDir : String) (i : Nat) : String :=
  outputDir ++ "/input.txt." ++ toString i

/-- Number of lines in the content of a partition file. -/
def lineCount (content : List Char) : Nat := content.count '\n'


/-- Lines per partition for a manifest of `n` lines and a requested parallelism `p`:
the ceiling of `n / min(p, n)`. -/
def linesPerPartition (n : Nat) (p : Int) : Nat := ceilDiv n (min p.toNat n)

/-- Number of partitions for a manifest of `n` lines and a requested parallelism `p`:
the ceiling of `n / linesPerPartition`. -/
def partitionCount (n : Nat) (p : Int) : Nat := ceilDiv n (linesPerPartition n p)

/-- The lines of partition `j` when the manifest `lines` is cut into runs of `k`
lines. -/
def chunk (lines : List (List Char)) (k j : Nat) : List (List Char) :=
  (lines.drop (j * k)).take k

/-- The input stream of the loop is reading the lines `rest` of the manifest: either it
is in good state in front of them, or it has failed at the end of the input. -/
def Reading (s : IStream) (rest : List (List Char)) : Prop :=
  s = IStream.opened (joinLines rest) ∨ (s = ⟨[], true, true⟩ ∧ rest = [])

/-! ## Image -/

/-- Struct `Image` of `frvt_structs.h`.  `width` and `height` are `uint16_t`, `depth` is
`uint8_t`.  `data` is the managed pointer: `none` for a null pointer, otherwise the
bytes of the buffer it points to, where a byte that was allocated but never written is
`none`. -/
structure Image where
  width : Nat
  height : Nat
  depth : Nat
  data : Option (List (Option Char))
  deriving DecidableEq, Repr

/-- The default constructor `Image()`. -/
def Image.default : Image := ⟨0, 0, 24, none⟩

/-- Member `Image::size()`: `width * height * (depth / 8)`, evaluated in `int` after
integral promotion of the three operands; an intermediate result above `INT_MAX` is a
signed overflow. -/
def Image.size (image : Image) : Except Fault Nat :=
  if (image.width * image.height : Int) > INT_MAX then .error Fault.signedOverflow
  else if (image.width * image.height * (image.depth / 8) : Int) > INT_MAX then
    .error Fault.signedOverflow
  else .ok (image.width * image.height * (image.depth / 8))

/-! ## Formatted and unformatted input -/

/-- Function `isspace` in the classic locale. -/
def isspace (c : Char) : Bool :=
  c = ' ' || c = '\t' || c = '\n' || c = '\x0b' || c = '\x0c' || c = '\r'

/-- Function `isdigit`. -/
def isdigit (c : Char) : Bool := 48 ≤ c.toNat && c.toNat ≤ 57

/-- Value of a run of decimal digits. -/
def digitsValue (ds : List Char) : Nat :=
  ds.foldl (fun acc c => acc * 10 + (c.toNat - 48)) 0

/-- The sentry of a formatted input function: on a good stream white space is skipped,
and reaching the end of the input while doing so sets `eofbit`; the sentry is not ok,
and `failbit` is set, when the stream was not good or the end was reached.  Returns the
stream and whether the sentry is ok. -/
def sentrySkipws (s : IStream) : IStream × Bool :=
  if s.good then
    if s.buf.dropWhile isspace = [] then (⟨[], true, true⟩, false)
    else ({ s with buf := s.buf.dropWhile isspace }, true)
  else ({ s with failbit := true }, false)

/-- The extraction `stream >> str` into a `std::string`: after the sentry, `str` is
erased and receives the characters up to the next white space or the end of the input,
which sets `eofbit`; `failbit` is set when nothing was extracted.  When the sentry is
not ok `str` is left alone. -/
def extractString (s : IStream) (str : List Char) : IStream × List Char :=
  if (sentrySkipws s).2 then
    (⟨(sentrySkipws s).1.buf.dropWhile (fun c => !isspace c),
      ((sentrySkipws s).1.buf.dropWhile (fun c => !isspace c)).isEmpty,
      ((sentrySkipws s).1.buf.takeWhile (fun c => !isspace c)).isEmpty⟩,
     (sentrySkipws s).1.buf.takeWhile (fun c => !isspace c))
  else ((sentrySkipws s).1, str)

/-- The characters after an optional sign. -/
def afterSign (cs : List Char) : List Char :=
  if cs.head? = some '-' ∨ cs.head? = some '+' then cs.tail else cs

/-- The extraction `stream >> v` into a `uint16_t` (decimal, as `num_get` of libstdc++
does it): after the sentry, an optional sign and the longest run of digits are
consumed, and meeting the end of the input sets `eofbit`.  Without a digit `v` becomes
`0` and `failbit` is set; a value above `65535` gives `65535` and `failbit`; otherwise
`v` receives the value, negated modulo `2^16` after a minus sign.  When the sentry is
not ok `v` is left alone. -/
def extractUInt16 (s : IStream) (v : Nat) : IStream × Nat :=
  if (sentrySkipws s).2 then
    if (afterSign (sentrySkipws s).1.buf).takeWhile isdigit = [] then
      (⟨(afterSign (sentrySkipws s).1.buf).dropWhile isdigit,
        ((afterSign (sentrySkipws s).1.buf).dropWhile isdigit).isEmpty, true⟩, 0)
    else if digitsValue ((afterSign (sentrySkipws s).1.buf).takeWhile isdigit) > 65535 then
      (⟨(afterSign (sentrySkipws s).1.buf).dropWhile isdigit,
        ((afterSign (sentrySkipws s).1.buf).dropWhile isdigit).isEmpty, true⟩, 65535)
    else
      (⟨(afterSign (sentrySkipws s).1.buf).dropWhile isdigit,
        ((afterSign (sentrySkipws s).1.buf).dropWhile isdigit).isEmpty, false⟩,
       if (sentrySkipws s).1.buf.head? = some '-' then
         (65536 - digitsValue ((afterSign (sentrySkipws s).1.buf).takeWhile isdigit)) % 65536
       else digitsValue ((afterSign (sentrySkipws s).1.buf).takeWhile isdigit))
  else ((sentrySkipws s).1, v)

/-- The call `stream.ignore(numeric_limits<streamsize>::max(), '\n')`: on a good stream
characters are discarded up to and including the next line feed; reaching the end of
the input first sets `eofbit`.  On a stream that is not good `failbit` is set. -/
def ignoreLine (s : IStream) : IStream :=
  if s.good then
    match (untilNewline s.buf).2 with
    | some rest => { s with buf := rest }
    | none => ⟨[], true, s.failbit⟩
  else { s with failbit := true }

/-- The call `stream.read(buffer, n)`: on a good stream up to `n` bytes are stored; when
fewer than `n` are available `eofbit` and `failbit` are set.  On a stream that is not
good nothing is read and `failbit` is set.  Returns the stream and the bytes stored. -/
def readBytes (s : IStream) (n : Nat) : IStream × List Char :=
  if s.good then
    if n ≤ s.buf.length then ({ s with buf := s.buf.drop n }, s.buf.take n)
    else (⟨[], true, true⟩, s.buf)
  else ({ s with failbit := true }, [])

/-! ## readImage -/

/-- Function `readImage` of `util.cpp`.  `input` is what opening `file` in binary mode
gives: `none` when it cannot be opened, otherwise its content.  `image` is the value of
the `Image` passed by reference; the result is the returned `bool` with the value of
the `Image` after the call.  The local `maxValue` is extracted and never used; the
allocation `new uint8_t[image.size()]` is taken to succeed. -/
def readImage (input : Option (List Char)) (image : Image) : Except Fault (Bool × Image) :=
  match input with
  | none => .ok (false, image)
  | some content =>
    let magic := extractString (IStream.opened content) []
    if magic.2 ≠ ['P', '6'] then .ok (false, image)
    else
      let w := extractUInt16 magic.1 image.width
      let h := extractUInt16 w.1 image.height
      let m := extractUInt16 h.1 0
      let image1 : Image := { image with width := w.2, height := h.2 }
      if !m.1.good then .ok (false, image1)
      else
        let image2 : Image := { image1 with depth := 24 }
        let skipped := ignoreLine m.1
        match image2.size with
        | .error f => .error f
        | .ok n =>
          let pixels := readBytes skipped n
          let image3 : Image :=
            { image2 with
              data := some (pixels.2.map some ++ List.replicate (n - pixels.2.length) none) }
          if !pixels.1.good then .ok (false, image3)
          else .ok (true, image3)

/-- Decimal representation of a natural number. -/
def decimal (n : Nat) : List Char := (toString n).toList

/-- A file that starts with the header `P6`, line feed, width, space, height, space,
maximal value, line feed, followed by the given bytes. -/
def ppmFile (w h m : Nat) (bytes : List Char) : List Char :=
  "P6\n".toList ++ decimal w ++ [' '] ++ decimal h ++ [' '] ++ decimal m ++ ['\n'] ++ bytes

/-! ## split -/

/-- The loop `for (unsigned int i = 0; i < str.length(); i++)` of `split`, started at
index `i` with the current token `cur_str` and the tokens `ret` found so far.  The index
is an `unsigned int`, so `i++` is taken modulo `2^32`, while `str.length()` is a
`size_t`.  `fuel` bounds the number of times the loop condition is evaluated; the
result is the pair of `cur_str` and `ret` at the exit of the loop, and `none` when the
loop has not ended within `fuel` evaluations. -/
def splitLoop (str : List Char) (delimiter : Char) :
    Nat → Nat → List Char → List (List Char) → Option (List Char × List (List Char))
  | 0, _, _, _ => none
  | fuel + 1, i, cur_str, ret =>
    if h : i < str.length then
      if str[i] = delimiter then
        if cur_str = [] then
          splitLoop str delimiter fuel ((i + 1) % 4294967296) cur_str ret
        else
          splitLoop str delimiter fuel ((i + 1) % 4294967296) [] (ret ++ [cur_str])
      else
        splitLoop str delimiter fuel ((i + 1) % 4294967296) (cur_str ++ [str[i]]) ret
    else some (cur_str, ret)

/-- Function `split` of `util.cpp`, with `fuel` for its loop: the returned vector, and
`none` when the loop has not ended within `fuel` evaluations of its condition. -/
def split (fuel : Nat) (str : List Char) (delimiter : Char) : Option (List (List Char)) :=
  match splitLoop str delimiter fuel 0 [] [] with
  | none => none
  | some (cur_str, ret) =>
    let ret1 := if cur_str ≠ [] then ret ++ [cur_str] else ret
    some (if ret1.length = 0 then ret1 ++ [str] else ret1)

/-- The loop of `split` over the characters that are left, without the index. -/
def scanTokens (delimiter : Char) :
    List Char → List Char → List (List Char) → List Char × List (List Char)
  | [], cur_str, ret => (cur_str, ret)
  | c :: cs, cur_str, ret =>
    if c = delimiter then
      if cur_str = [] then scanTokens delimiter cs cur_str ret
      else scanTokens delimiter cs [] (ret ++ [cur_str])
    else scanTokens delimiter cs (cur_str ++ [c]) ret

/-- Reference definition of the tokens of a text: cut the text at every occurrence of
the delimiter and keep, in order, the pieces that are not empty. -/
def splitReference (text : List Char) (delimiter : Char) : List (List Char) :=
  (text.splitOn delimiter).filter (fun piece => decide (piece ≠ []))

/-! ## Vocabulary for the image header -/

/-- The first white-space delimited token of a file: the characters after the leading
white space up to the next white space or the end. -/
def firstToken (content : List Char) : List Char :=
  (content.dropWhile isspace).takeWhile (fun c => !isspace c)

/-- A non-empty run of white space, as it separates two tokens. -/
def IsBlank (ws : List Char) : Prop := ws ≠ [] ∧ ∀ c ∈ ws, isspace c = true

/-- The four tokens `P6`, width, height and maximal value of a header, separated by the
given runs of white space. -/
def ppmTokens (ws1 ws2 ws3 : List Char) (w h m : Nat) : List Char :=
  ['P', '6'] ++ ws1 ++ decimal w ++ ws2 ++ decimal h ++ ws3 ++ decimal m
/-! ## Arithmetic of the ceiling division -/

theorem ceilDiv_eq_div_add (n d : Nat) (hd : 0 < d) :
    ceilDiv n d = n / d + (if n % d > 0 then 1 else 0) := by
  unfold ceilDiv
  have h := Nat.div_add_mod n d
  have hr := Nat.mod_lt n hd
  split_ifs with h0
  · apply Nat.div_eq_of_lt_le
    · have : (n / d + 1) * d = d * (n / d) + d := by ring
      omega
    · have : (n / d + 1 + 1) * d = d * (n / d) + d + d := by ring
      show n + d - 1 < (n / d + 1 + 1) * d
      omega
  · apply Nat.div_eq_of_lt_le
    · have : (n / d + 0) * d = d * (n / d) := by ring
      omega
    · have : (n / d + 0 + 1) * d = d * (n / d) + d := by ring
      show n + d - 1 < (n / d + 0 + 1) * d
      omega

theorem le_ceilDiv_mul (n d : Nat) (hd : 0 < d) : n ≤ ceilDiv n d * d := by
  unfold ceilDiv
  have h := Nat.div_add_mod (n + d - 1) d
  have hr := Nat.mod_lt (n + d - 1) hd
  have : (n + d - 1) / d * d = d * ((n + d - 1) / d) := by ring
  omega

theorem ceilDiv_pos (n d : Nat) (hd : 0 < d) (hn : 0 < n) : 0 < ceilDiv n d := by
  have h := le_ceilDiv_mul n d hd
  rcases Nat.eq_zero_or_pos (ceilDiv n d) with h0 | h0
  · rw [h0] at h; omega
  · exact h0

theorem pred_ceilDiv_mul_lt (n d : Nat) (hd : 0 < d) (hn : 0 < n) :
    (ceilDiv n d - 1) * d < n := by
  have hp := ceilDiv_pos n d hd hn
  unfold ceilDiv at *
  have h := Nat.div_mul_le_self (n + d - 1) d
  have : ((n + d - 1) / d - 1) * d + d = (n + d - 1) / d * d := by
    obtain ⟨k, hk⟩ : ∃ k, (n + d - 1) / d = k + 1 := ⟨(n + d - 1) / d - 1, by omega⟩
    rw [hk]; simp; ring
  omega

theorem ceilDiv_le_of_le_mul (n d k : Nat) (hd : 0 < d) (h : n ≤ k * d) : ceilDiv n d ≤ k := by
  unfold ceilDiv
  have : (n + d - 1) / d < k + 1 := by
    rw [Nat.div_lt_iff_lt_mul hd]
    have : (k + 1) * d = k * d + d := by ring
    omega
  omega

theorem ceilDiv_le_self (n d : Nat) (hd : 0 < d) : ceilDiv n d ≤ n := by
  apply ceilDiv_le_of_le_mul n d n hd
  exact Nat.le_mul_of_pos_right n hd

theorem toInt32_of_range (x : Int) (h0 : 0 ≤ x) (h1 : x ≤ INT_MAX) : toInt32 x = x := by
  unfold toInt32; unfold INT_MAX at h1; omega

theorem toUInt32_of_range (x : Int) (h0 : 0 ≤ x) (h1 : x ≤ INT_MAX) : toUInt32 x = x := by
  unfold toUInt32; unfold INT_MAX at h1; omega

/-- The `long` expression `a / b + (a % b > 0 ? 1 : 0)` on non-negative `a` and
positive `b` is the ceiling of the quotient. -/
theorem roundUp_eq_ceilDiv (n d : Nat) (hd : 0 < d) :
    (n : Int).tdiv (d : Int) + (if (n : Int).tmod (d : Int) > 0 then 1 else 0)
      = ((ceilDiv n d : Nat) : Int) := by
  rw [Int.tdiv_eq_ediv (by omega) (by omega), Int.tmod_eq_emod (by omega) (by omega),
    ceilDiv_eq_div_add n d hd]
  have h1 : ((n : Int) % (d : Int) > 0) ↔ (n % d > 0) := by
    rw [← Int.ofNat_emod]; omega
  by_cases h : n % d > 0
  · rw [if_pos (h1.mpr h), if_pos h]; push_cast; rfl
  · rw [if_neg (fun hh => h (h1.mp hh)), if_neg h]; push_cast; rfl


/-! ## Reading a manifest line by line -/

theorem untilNewline_line (l rest : List Char) (hl : '\n' ∉ l) :
    untilNewline (l ++ '\n' :: rest) = (l, some rest) := by
  induction l with
  | nil => simp [untilNewline]
  | cons c cs ih =>
    have hc : c ≠ '\n' := fun h => hl (by simp [h])
    have hcs : '\n' ∉ cs := fun h => hl (by simp [h])
    simp [untilNewline, hc, ih hcs]

theorem joinLines_nil : joinLines [] = [] := rfl

theorem joinLines_cons (l : List Char) (ls : List (List Char)) :
    joinLines (l :: ls) = l ++ '\n' :: joinLines ls := by
  simp [joinLines]

theorem joinLines_append (xs ys : List (List Char)) :
    joinLines (xs ++ ys) = joinLines xs ++ joinLines ys := by
  simp [joinLines]

theorem getline_joinLines_cons (l : List Char) (ls : List (List Char)) (hl : '\n' ∉ l) :
    getline (IStream.opened (joinLines (l :: ls))) = (some l, IStream.opened (joinLines ls)) := by
  simp [getline, IStream.opened, IStream.good, joinLines_cons, untilNewline_line l _ hl]

theorem getline_exhausted :
    getline (IStream.opened []) = (none, ⟨[], true, true⟩) := by
  simp [getline, IStream.opened, IStream.good, untilNewline]

/-- Reading `k` lines from a manifest that still has at least `k` of them. -/
theorem copyLines_full (k : Nat) (ls : List (List Char)) (out : List Char)
    (hl : ∀ l ∈ ls, '\n' ∉ l) (hk : k ≤ ls.length) :
    copyLines k (IStream.opened (joinLines ls)) out
      = (IStream.opened (joinLines (ls.drop k)), out ++ joinLines (ls.take k)) := by
  induction k generalizing ls out with
  | zero => simp [copyLines, joinLines_nil]
  | succ k ih =>
    match ls, hk, hl with
    | l :: ls, hk, hl =>
      have h1 : '\n' ∉ l := hl l (by simp)
      have h2 : ∀ x ∈ ls, '\n' ∉ x := fun x hx => hl x (by simp [hx])
      have hk2 : k ≤ ls.length := by simpa using hk
      simp only [copyLines, getline_joinLines_cons l ls h1, ih ls _ h2 hk2]
      simp [joinLines_cons]

/-- Asking for more lines than the manifest still has: all of them are copied and the
loop stops at the failing `getline`. -/
theorem copyLines_short (k : Nat) (ls : List (List Char)) (out : List Char)
    (hl : ∀ l ∈ ls, '\n' ∉ l) (hk : ls.length < k) :
    copyLines k (IStream.opened (joinLines ls)) out
      = (⟨[], true, true⟩, out ++ joinLines ls) := by
  induction k generalizing ls out with
  | zero => omega
  | succ k ih =>
    match ls, hk, hl with
    | [], _, _ => simp [copyLines, joinLines_nil, getline_exhausted]
    | l :: ls, hk, hl =>
      have h1 : '\n' ∉ l := hl l (by simp)
      have h2 : ∀ x ∈ ls, '\n' ∉ x := fun x hx => hl x (by simp [hx])
      have hk2 : ls.length < k := by simpa using hk
      simp only [copyLines, getline_joinLines_cons l ls h1, ih ls _ h2 hk2]
      simp [joinLines_cons]

/-- The part of the output that `copyLines` produces, in both cases. -/
theorem copyLines_output (k : Nat) (ls : List (List Char)) (out : List Char)
    (hl : ∀ l ∈ ls, '\n' ∉ l) :
    (copyLines k (IStream.opened (joinLines ls)) out).2 = out ++ joinLines (ls.take k) := by
  rcases Nat.lt_or_ge ls.length k with h | h
  · rw [copyLines_short k ls out hl h, List.take_of_length_le (by omega)]
  · rw [copyLines_full k ls out hl h]

theorem count_joinLines (ls : List (List Char)) (hl : ∀ l ∈ ls, '\n' ∉ l) :
    (joinLines ls).count '\n' = ls.length := by
  induction ls with
  | nil => simp [joinLines_nil]
  | cons l ls ih =>
    have h1 : '\n' ∉ l := hl l (by simp)
    have h2 : ∀ x ∈ ls, '\n' ∉ x := fun x hx => hl x (by simp [hx])
    rw [joinLines_cons, List.count_append, List.count_cons_self, ih h2,
      List.count_eq_zero_of_not_mem h1]
    simp

/-! ## The partitioning loop -/

theorem filepath_eq (outputDir : String) (i : Nat) :
    outputDir ++ "/" ++ inputFileStem ++ toString i = partitionPath outputDir i := by
  unfold partitionPath
  rw [String.append_assoc outputDir "/" inputFileStem]
  rfl

/-- A stream that has failed stays as it is and gives no line. -/
theorem copyLines_failed (k : Nat) (out : List Char) :
    copyLines k ⟨[], true, true⟩ out = (⟨[], true, true⟩, out) := by
  cases k with
  | zero => rfl
  | succ k => simp [copyLines, getline, IStream.good]

theorem copyLines_reading (k : Nat) (s : IStream) (rest : List (List Char))
    (hl : ∀ l ∈ rest, '\n' ∉ l) (hs : Reading s rest) :
    Reading (copyLines k s []).1 (rest.drop k) ∧
      (copyLines k s []).2 = joinLines (rest.take k) := by
  rcases hs with hs | ⟨hs, hr⟩
  · subst hs
    refine ⟨?_, by simpa using copyLines_output k rest [] hl⟩
    rcases Nat.lt_or_ge rest.length k with h | h
    · rw [copyLines_short k rest [] hl h]
      exact Or.inr ⟨rfl, List.drop_eq_nil_of_le (by omega)⟩
    · rw [copyLines_full k rest [] hl h]
      exact Or.inl rfl
  · subst hs; subst hr
    rw [copyLines_failed]
    exact ⟨Or.inr ⟨rfl, by simp⟩, by simp [joinLines_nil]⟩

/-- The outer loop, when every output file can be opened: iteration `j` creates the
file with index `i + j` and fills it with the next `numLinesPerFork` lines of the
manifest (fewer, possibly none, once the manifest is exhausted). -/
theorem forkLoop_written (canOpen : String → Bool) (outputDir : String) (numLinesPerFork : Int)
    (hmax : numLinesPerFork ≠ INT_MAX) (todo : Nat) :
    ∀ (i : Nat) (s : IStream) (rest : List (List Char)) (fv : List String)
      (wr : List (String × List Char)),
      (∀ l ∈ rest, '\n' ∉ l) → Reading s rest →
      (∀ j, j < todo → canOpen (partitionPath outputDir (i + j)) = true) →
      ∃ s', forkLoop canOpen outputDir numLinesPerFork todo i ⟨s, fv, wr⟩
        = .ok (RetCode.SUCCESS,
            ⟨s', fv ++ (List.range todo).map (fun j => partitionPath outputDir (i + j)),
             wr ++ (List.range todo).map (fun j => (partitionPath outputDir (i + j),
               joinLines ((rest.drop (j * numLinesPerFork.toNat)).take
                 numLinesPerFork.toNat)))⟩) := by
  induction todo with
  | zero => intro i s rest fv wr _ _ _; exact ⟨s, by simp [forkLoop]⟩
  | succ todo ih =>
    intro i s rest fv wr hl hs hopen
    have h0 : canOpen (partitionPath outputDir i) = true := by simpa using hopen 0 (by omega)
    obtain ⟨hr1, hr2⟩ := copyLines_reading numLinesPerFork.toNat s rest hl hs
    have hl' : ∀ l ∈ rest.drop numLinesPerFork.toNat, '\n' ∉ l :=
      fun l hm => hl l (List.mem_of_mem_drop hm)
    obtain ⟨s', hs'⟩ := ih (i + 1) (copyLines numLinesPerFork.toNat s []).1
      (rest.drop numLinesPerFork.toNat) (fv ++ [partitionPath outputDir i])
      (wr ++ [(partitionPath outputDir i, (copyLines numLinesPerFork.toNat s []).2)])
      hl' hr1 (fun j hj => by
        have := hopen (j + 1) (by omega)
        rwa [show i + 1 + j = i + (j + 1) by omega])
    refine ⟨s', ?_⟩
    simp only [forkLoop, filepath_eq, h0, if_true, if_neg hmax]
    rw [hs', hr2]
    have hshift : ∀ {α : Type} (f : Nat → α),
        (List.range (todo + 1)).map f = f 0 :: (List.range todo).map (fun j => f (j + 1)) := by
      intro α f
      rw [List.range_succ_eq_map, List.map_cons, List.map_map]
      rfl
    rw [hshift, hshift]
    simp only [Nat.zero_mul, List.drop_zero, Nat.add_zero, List.append_assoc,
      List.singleton_append, List.drop_drop]
    have e1 : ∀ j, i + 1 + j = i + (j + 1) := fun j => by omega
    have e2 : ∀ j, numLinesPerFork.toNat + j * numLinesPerFork.toNat
        = (j + 1) * numLinesPerFork.toNat := fun j => by ring
    simp only [e1, e2]

/-! ## Decimal numbers -/

theorem decimal_eq_toDigits (n : Nat) : decimal n = Nat.toDigits 10 n := rfl

theorem digitChar_isdigit : ∀ d, d < 10 →
    isdigit (Nat.digitChar d) = true ∧ (Nat.digitChar d).toNat - 48 = d := by
  decide

/-- The digits that `Nat.toDigitsCore` puts in front of its accumulator. -/
theorem toDigitsCore_spec (fuel : Nat) :
    ∀ (n : Nat) (ds : List Char), n < fuel →
      ∃ pre : List Char, Nat.toDigitsCore 10 fuel n ds = pre ++ ds ∧ pre ≠ [] ∧
        (∀ c ∈ pre, isdigit c = true) ∧
        ∀ a : Nat, pre.foldl (fun acc c => acc * 10 + (c.toNat - 48)) a
          = a * 10 ^ pre.length + n := by
  induction fuel with
  | zero => intro n ds h; omega
  | succ fuel ih =>
    intro n ds hn
    have hd := digitChar_isdigit (n % 10) (Nat.mod_lt n (by omega))
    by_cases h0 : n / 10 = 0
    · refine ⟨[Nat.digitChar (n % 10)], ?_, by simp, ?_, ?_⟩
      · simp [Nat.toDigitsCore, h0]
      · intro c hc
        rw [List.mem_singleton] at hc
        rw [hc]; exact hd.1
      · intro a
        simp only [List.foldl_cons, List.foldl_nil, List.length_singleton, pow_one, hd.2]
        omega
    · obtain ⟨pre, hpre, _, hdig, hval⟩ := ih (n / 10) (Nat.digitChar (n % 10) :: ds) (by omega)
      refine ⟨pre ++ [Nat.digitChar (n % 10)], ?_, by simp, ?_, ?_⟩
      · simp [Nat.toDigitsCore, h0, hpre]
      · intro c hc
        rcases List.mem_append.mp hc with hc | hc
        · exact hdig c hc
        · rw [List.mem_singleton] at hc
          rw [hc]; exact hd.1
      · intro a
        rw [List.foldl_append, hval a]
        simp only [List.foldl_cons, List.foldl_nil, List.length_append, List.length_singleton,
          hd.2, pow_succ]
        have := Nat.div_add_mod n 10
        nlinarith [this]

theorem decimal_ne_nil (n : Nat) : decimal n ≠ [] := by
  obtain ⟨pre, hpre, hne, _, _⟩ := toDigitsCore_spec (n + 1) n [] (by omega)
  rw [decimal_eq_toDigits, Nat.toDigits, hpre]
  simpa using hne

theorem decimal_isdigit (n : Nat) : ∀ c ∈ decimal n, isdigit c = true := by
  obtain ⟨pre, hpre, _, hdig, _⟩ := toDigitsCore_spec (n + 1) n [] (by omega)
  rw [decimal_eq_toDigits, Nat.toDigits, hpre]
  simpa using hdig

theorem digitsValue_decimal (n : Nat) : digitsValue (decimal n) = n := by
  obtain ⟨pre, hpre, _, _, hval⟩ := toDigitsCore_spec (n + 1) n [] (by omega)
  rw [decimal_eq_toDigits, Nat.toDigits, hpre, List.append_nil]
  unfold digitsValue
  rw [hval 0]
  omega

/-! ## Extraction of the header fields -/

theorem takeWhile_run (p : Char → Bool) (pre : List Char) (c : Char) (rest : List Char)
    (hpre : ∀ x ∈ pre, p x = true) (hc : p c = false) :
    (pre ++ c :: rest).takeWhile p = pre ∧ (pre ++ c :: rest).dropWhile p = c :: rest := by
  induction pre with
  | nil => simp [List.takeWhile, List.dropWhile, hc]
  | cons x xs ih =>
    have hx : p x = true := hpre x (by simp)
    have := ih (fun y hy => hpre y (by simp [hy]))
    simp [List.takeWhile, List.dropWhile, hx, this.1, this.2]

theorem isdigit_not_isspace (c : Char) (h : isdigit c = true) : isspace c = false := by
  unfold isdigit at h
  unfold isspace
  simp only [Bool.and_eq_true, decide_eq_true_eq] at h
  have h1 : c ≠ ' ' := by rintro rfl; revert h; decide
  have h2 : c ≠ '\t' := by rintro rfl; revert h; decide
  have h3 : c ≠ '\n' := by rintro rfl; revert h; decide
  have h4 : c ≠ '\x0b' := by rintro rfl; revert h; decide
  have h5 : c ≠ '\x0c' := by rintro rfl; revert h; decide
  have h6 : c ≠ '\r' := by rintro rfl; revert h; decide
  simp [h1, h2, h3, h4, h5, h6]

/-- Extraction of a number written in decimal, after white space and followed by a
character that is not a digit. -/
theorem extractUInt16_decimal (ws : List Char) (n : Nat) (c : Char) (rest : List Char) (v : Nat)
    (hws : ∀ x ∈ ws, isspace x = true) (hn : n ≤ 65535) (hc : isdigit c = false) :
    extractUInt16 ⟨ws ++ (decimal n ++ c :: rest), false, false⟩ v
      = (⟨c :: rest, false, false⟩, n) := by
  obtain ⟨d, ds, hd⟩ : ∃ d ds, decimal n = d :: ds := by
    cases h : decimal n with
    | nil => exact absurd h (decimal_ne_nil n)
    | cons d ds => exact ⟨d, ds, rfl⟩
  have hdig := decimal_isdigit n
  have hd0 : isdigit d = true := hdig d (by rw [hd]; simp)
  have hskip := (takeWhile_run isspace ws d (ds ++ c :: rest) hws
    (isdigit_not_isspace d hd0)).2
  have hsentry : sentrySkipws ⟨ws ++ (decimal n ++ c :: rest), false, false⟩
      = (⟨decimal n ++ c :: rest, false, false⟩, true) := by
    simp only [sentrySkipws, IStream.good, hd, List.cons_append, hskip]
    simp
  have hm : d ≠ '-' := by rintro rfl; revert hd0; decide
  have hp : d ≠ '+' := by rintro rfl; revert hd0; decide
  have hsign : afterSign (decimal n ++ c :: rest) = decimal n ++ c :: rest := by
    simp [afterSign, hd, hm, hp]
  have hspan := takeWhile_run isdigit (decimal n) c rest hdig hc
  have hval := digitsValue_decimal n
  have hhead : (decimal n ++ c :: rest).head? ≠ some '-' := by simp [hd, hm]
  simp only [extractUInt16, hsentry, hsign, hspan.1, hspan.2, hval, if_true, if_neg hhead,
    if_neg (decimal_ne_nil n), if_neg (show ¬ n > 65535 by omega)]
  rfl

/-- Extraction of the magic number `P6` followed by a line feed. -/
theorem extractString_P6 (rest : List Char) (str : List Char) :
    extractString (IStream.opened ('P' :: '6' :: '\n' :: rest)) str
      = (⟨'\n' :: rest, false, false⟩, ['P', '6']) := by
  have h1 : isspace 'P' = false := by decide
  have h2 : isspace '6' = false := by decide
  have h3 : isspace '\n' = true := by decide
  simp [extractString, sentrySkipws, IStream.opened, IStream.good, List.dropWhile,
    List.takeWhile, h1, h2, h3]

/-! ## readImage on a file with a well-formed header -/

theorem ppmFile_eq (w h m : Nat) (bytes : List Char) :
    ppmFile w h m bytes
      = 'P' :: '6' :: '\n' :: (decimal w ++ ' ' :: (decimal h ++ ' ' :: (decimal m ++ '\n' :: bytes))) := by
  simp [ppmFile]

theorem extractUInt16_field (w : Char) (n : Nat) (c : Char) (rest : List Char) (v : Nat)
    (hw : isspace w = true) (hn : n ≤ 65535) (hc : isdigit c = false) :
    extractUInt16 ⟨w :: (decimal n ++ c :: rest), false, false⟩ v
      = (⟨c :: rest, false, false⟩, n) :=
  extractUInt16_decimal [w] n c rest v (by simpa using hw) hn hc

theorem readBytes_opened (bytes : List Char) (n : Nat) :
    readBytes ⟨bytes, false, false⟩ n
      = (if n ≤ bytes.length then ⟨bytes.drop n, false, false⟩ else ⟨[], true, true⟩,
         bytes.take n) := by
  unfold readBytes
  by_cases h : n ≤ bytes.length
  · simp [IStream.good, h]
  · simp [IStream.good, h, List.take_of_length_le (by omega : bytes.length ≤ n)]

/-- What `readImage` does on a file with the header `P6`, line feed, `W H M`, line
feed, for `W`, `H`, `M` in `0..65535`: the header is accepted, the image gets width `W`,
height `H` and depth `24`, a buffer of `size()` bytes is allocated and filled with as
many of the following bytes as there are, and the result tells whether there were
enough of them. -/
theorem readImage_ppmFile (W H M : Nat) (bytes : List Char) (image : Image)
    (hW : W ≤ 65535) (hH : H ≤ 65535) (hM : M ≤ 65535) :
    readImage (some (ppmFile W H M bytes)) image
      = match (⟨W, H, 24, image.data⟩ : Image).size with
        | .error f => .error f
        | .ok n => .ok (decide (n ≤ bytes.length),
            ⟨W, H, 24, some ((bytes.take n).map some
              ++ List.replicate (n - (bytes.take n).length) none)⟩) := by
  have hsp : isspace ' ' = true := by decide
  have hnl : isspace '\n' = true := by decide
  have hdsp : isdigit ' ' = false := by decide
  have hdnl : isdigit '\n' = false := by decide
  have hskip : ignoreLine ⟨'\n' :: bytes, false, false⟩ = ⟨bytes, false, false⟩ := by
    simp [ignoreLine, IStream.good, untilNewline]
  have e0 := extractString_P6
    (decimal W ++ ' ' :: (decimal H ++ ' ' :: (decimal M ++ '\n' :: bytes))) []
  have e1 := extractUInt16_field '\n' W ' ' (decimal H ++ ' ' :: (decimal M ++ '\n' :: bytes))
    image.width hnl hW hdsp
  have e2 := extractUInt16_field ' ' H ' ' (decimal M ++ '\n' :: bytes) image.height hsp hH hdsp
  have e3 := extractUInt16_field ' ' M '\n' bytes 0 hsp hM hdnl
  rw [ppmFile_eq]
  unfold readImage
  dsimp only
  rw [e0]
  dsimp only
  rw [if_neg (by simp), e1]
  dsimp only
  rw [e2]
  dsimp only
  rw [e3]
  dsimp only
  rw [hskip]
  cases hsize : (⟨W, H, 24, image.data⟩ : Image).size with
  | error f => simp [IStream.good]
  | ok n =>
    by_cases hn : n ≤ bytes.length
    · simp [IStream.good, readBytes_opened, hn]
    · simp [IStream.good, readBytes_opened, hn]

theorem size_of_fits (W H : Nat) (data : Option (List (Option Char)))
    (h : (W * H * 3 : Int) ≤ INT_MAX) :
    (⟨W, H, 24, data⟩ : Image).size = .ok (W * H * 3) := by
  unfold Image.size
  have h1 : ¬ ((W : Int) * (H : Int) > INT_MAX) := by
    have : (0 : Int) ≤ (W : Int) * (H : Int) := by positivity
    unfold INT_MAX at *
    omega
  have h2 : ¬ ((W : Int) * (H : Int) * ((24 : Nat) / 8 : Int) > INT_MAX) := by
    unfold INT_MAX at *
    norm_num
    omega
  simp only [if_neg h1, if_neg h2]

/-! ## The loop of split -/

/-- On a string shorter than `2^32` the index reaches every position once and the loop
ends: with enough fuel it computes `scanTokens` on the characters from `i` on. -/
theorem splitLoop_eq_scanTokens (str : List Char) (delimiter : Char)
    (hlen : str.length < 4294967296) (fuel : Nat) :
    ∀ (i : Nat) (cur ret), i ≤ str.length → str.length - i < fuel →
      splitLoop str delimiter fuel i cur ret
        = some (scanTokens delimiter (str.drop i) cur ret) := by
  induction fuel with
  | zero => intro i cur ret _ h; omega
  | succ fuel ih =>
    intro i cur ret hi hf
    unfold splitLoop
    by_cases h : i < str.length
    · have hmod : (i + 1) % 4294967296 = i + 1 := Nat.mod_eq_of_lt (by omega)
      rw [dif_pos h, hmod, List.drop_eq_getElem_cons h]
      unfold scanTokens
      by_cases hc : str[i] = delimiter
      · rw [if_pos hc, if_pos hc]
        by_cases he : cur = []
        · rw [if_pos he, if_pos he]
          exact ih (i + 1) cur ret (by omega) (by omega)
        · rw [if_neg he, if_neg he]
          exact ih (i + 1) [] _ (by omega) (by omega)
      · rw [if_neg hc, if_neg hc]
        exact ih (i + 1) _ ret (by omega) (by omega)
    · rw [dif_neg h, List.drop_eq_nil_of_le (by omega)]
      rfl

/-- On a string of `2^32` characters or more the index wraps around before it reaches
the length: the loop condition holds for ever. -/
theorem splitLoop_never_ends (str : List Char) (delimiter : Char)
    (hlen : 4294967296 ≤ str.length) (fuel : Nat) :
    ∀ (i : Nat) (cur ret), i < 4294967296 → splitLoop str delimiter fuel i cur ret = none := by
  induction fuel with
  | zero => intro i cur ret _; rfl
  | succ fuel ih =>
    intro i cur ret hi
    have h : i < str.length := by omega
    have hmod : (i + 1) % 4294967296 < 4294967296 := Nat.mod_lt _ (by decide)
    unfold splitLoop
    rw [dif_pos h]
    split_ifs
    · exact ih _ _ _ hmod
    · exact ih _ _ _ hmod
    · exact ih _ _ _ hmod

theorem split_never_returns (str : List Char) (delimiter : Char)
    (hlen : 4294967296 ≤ str.length) (fuel : Nat) : split fuel str delimiter = none := by
  unfold split
  rw [splitLoop_never_ends str delimiter hlen fuel 0 [] [] (by decide)]

/-- The tokens kept by `split` before its fallback. -/
theorem scanTokens_spec (delimiter : Char) (text : List Char) :
    ∀ (cur : List Char) (ret : List (List Char)),
      (scanTokens delimiter text cur ret).2
          ++ (if (scanTokens delimiter text cur ret).1 ≠ [] then
                [(scanTokens delimiter text cur ret).1] else [])
        = ret ++ ((text.splitOn delimiter).modifyHead (fun p => cur ++ p)).filter
            (fun piece => decide (piece ≠ [])) := by
  induction text with
  | nil =>
    intro cur ret
    by_cases h : cur = []
    · simp [scanTokens, List.splitOn, List.splitOnP_nil, h]
    · simp [scanTokens, List.splitOn, List.splitOnP_nil, h]
  | cons c cs ih =>
    intro cur ret
    have hmh : ∀ l : List (List Char), l.modifyHead (fun p => p) = l := by
      intro l; cases l <;> rfl
    unfold scanTokens
    by_cases hc : c = delimiter
    · have hsplit : (c :: cs).splitOn delimiter = [] :: cs.splitOn delimiter := by
        simp [List.splitOn, List.splitOnP_cons, hc]
      rw [if_pos hc, hsplit]
      by_cases he : cur = []
      · rw [if_pos he, ih cur ret, he]
        simp [hmh]
      · rw [if_neg he, ih [] (ret ++ [cur])]
        simp [hmh, he]
    · have hsplit : (c :: cs).splitOn delimiter
          = (cs.splitOn delimiter).modifyHead (List.cons c) := by
        simp [List.splitOn, List.splitOnP_cons, hc]
      rw [if_neg hc, ih (cur ++ [c]) ret, hsplit, List.modifyHead_modifyHead]
      congr 3
      funext p
      simp

/-- On a text shorter than `2^32`, with enough fuel, `split` returns the reference
tokens, or the text itself when there is none. -/
theorem split_eq (text : List Char) (delimiter : Char) (fuel : Nat)
    (hlen : text.length < 4294967296) (hfuel : text.length < fuel) :
    split fuel text delimiter
      = some (if splitReference text delimiter = [] then [text]
          else splitReference text delimiter) := by
  have hloop := splitLoop_eq_scanTokens text delimiter hlen fuel 0 [] [] (by omega) (by omega)
  have hspec := scanTokens_spec delimiter text [] []
  have hmh : ∀ l : List (List Char), l.modifyHead (fun p => ([] : List Char) ++ p) = l := by
    intro l; cases l <;> rfl
  rw [hmh, List.nil_append] at hspec
  have hret : (if (scanTokens delimiter text [] []).1 ≠ [] then
        (scanTokens delimiter text [] []).2 ++ [(scanTokens delimiter text [] []).1]
      else (scanTokens delimiter text [] []).2) = splitReference text delimiter := by
    refine Eq.trans ?_ hspec
    split_ifs <;> simp
  unfold split
  rw [hloop]
  simp only [List.drop_zero]
  rw [hret]
  by_cases h : splitReference text delimiter = []
  · simp [h]
  · simp [h]

/-! ## The reference tokens -/

theorem splitOn_cons_delimiter (d : Char) (cs : List Char) :
    (d :: cs).splitOn d = [] :: cs.splitOn d := by
  simp [List.splitOn, List.splitOnP_cons]

theorem splitOn_cons_other (d c : Char) (cs : List Char) (hc : c ≠ d) :
    (c :: cs).splitOn d = (cs.splitOn d).modifyHead (List.cons c) := by
  simp [List.splitOn, List.splitOnP_cons, hc]

theorem splitOn_ne_nil (d : Char) (text : List Char) : text.splitOn d ≠ [] :=
  List.splitOnP_ne_nil _ _

/-- No piece contains the delimiter, and no piece is longer than the text. -/
theorem splitOn_piece (d : Char) (text : List Char) :
    ∀ p ∈ text.splitOn d, d ∉ p ∧ p.length ≤ text.length := by
  induction text with
  | nil =>
    intro p hp
    simp [List.splitOn, List.splitOnP_nil] at hp
    subst hp
    simp
  | cons c cs ih =>
    intro p hp
    by_cases hc : c = d
    · subst hc
      rw [splitOn_cons_delimiter] at hp
      rcases List.mem_cons.mp hp with h | h
      · subst h; simp
      · have := ih p h
        exact ⟨this.1, by simp only [List.length_cons]; omega⟩
    · rw [splitOn_cons_other d c cs hc] at hp
      cases hs : cs.splitOn d with
      | nil => exact absurd hs (splitOn_ne_nil d cs)
      | cons q qs =>
        rw [hs] at hp ih
        simp only [List.modifyHead_cons, List.mem_cons] at hp
        rcases hp with h | h
        · subst h
          have := ih q (by simp)
          refine ⟨?_, by simp only [List.length_cons]; omega⟩
          intro hm
          rcases List.mem_cons.mp hm with h1 | h1
          · exact hc h1.symm
          · exact this.1 h1
        · have := ih p (by simp [h])
          exact ⟨this.1, by simp only [List.length_cons]; omega⟩

/-- A text with a character other than the delimiter has a piece that is not empty. -/
theorem splitReference_ne_nil (d : Char) (text : List Char) (h : ∃ c ∈ text, c ≠ d) :
    splitReference text d ≠ [] := by
  unfold splitReference
  induction text with
  | nil => obtain ⟨c, hc, _⟩ := h; simp at hc
  | cons x xs ih =>
    by_cases hx : x = d
    · subst hx
      rw [splitOn_cons_delimiter]
      have h' : ∃ c ∈ xs, c ≠ x := by
        obtain ⟨c, hc, hne⟩ := h
        rcases List.mem_cons.mp hc with h1 | h1
        · exact absurd h1 hne
        · exact ⟨c, h1, hne⟩
      simpa using ih h'
    · rw [splitOn_cons_other d x xs hx]
      cases hs : xs.splitOn d with
      | nil => exact absurd hs (splitOn_ne_nil d xs)
      | cons q qs => simp

/-- A text without the delimiter is its own single piece. -/
theorem splitOn_of_not_mem (d : Char) (text : List Char) (h : d ∉ text) :
    text.splitOn d = [text] := by
  unfold List.splitOn
  apply List.splitOnP_eq_single
  intro x hx hxd
  have : x = d := by simpa using hxd
  exact h (this ▸ hx)

theorem splitReference_of_not_mem (d : Char) (text : List Char) (h : d ∉ text)
    (hne : text ≠ []) : splitReference text d = [text] := by
  unfold splitReference
  rw [splitOn_of_not_mem d text h]
  simp [hne]

theorem mem_splitReference (d : Char) (text t : List Char) (h : t ∈ splitReference text d) :
    t ≠ [] ∧ d ∉ t ∧ t.length ≤ text.length := by
  unfold splitReference at h
  rw [List.mem_filter] at h
  have := splitOn_piece d text t h.1
  exact ⟨by simpa using h.2, this.1, this.2⟩

/-- Without enough fuel the loop does not reach its end. -/
theorem splitLoop_out_of_fuel (str : List Char) (delimiter : Char) (fuel : Nat) :
    ∀ (i : Nat) (cur ret), i < 4294967296 → fuel + i ≤ str.length →
      splitLoop str delimiter fuel i cur ret = none := by
  induction fuel with
  | zero => intro i cur ret _ _; rfl
  | succ fuel ih =>
    intro i cur ret hi hf
    have h : i < str.length := by omega
    by_cases hw : i + 1 < 4294967296
    · have hmod : (i + 1) % 4294967296 = i + 1 := Nat.mod_eq_of_lt hw
      unfold splitLoop
      rw [dif_pos h, hmod]
      split_ifs
      · exact ih _ _ _ hw (by omega)
      · exact ih _ _ _ hw (by omega)
      · exact ih _ _ _ hw (by omega)
    · exact splitLoop_never_ends str delimiter (by omega) _ _ _ _ hi

/-- When `split` returns, the text is shorter than `2^32` and the result is the
reference tokens, or the text itself when there is none. -/
theorem split_returns (text : List Char) (delimiter : Char) (fuel : Nat)
    (r : List (List Char)) (h : split fuel text delimiter = some r) :
    text.length < 4294967296 ∧
      r = (if splitReference text delimiter = [] then [text]
        else splitReference text delimiter) := by
  rcases Nat.lt_or_ge text.length 4294967296 with hlen | hlen
  · refine ⟨hlen, ?_⟩
    rcases Nat.lt_or_ge text.length fuel with hf | hf
    · rw [split_eq text delimiter fuel hlen hf] at h
      exact (Option.some.inj h).symm
    · unfold split at h
      rw [splitLoop_out_of_fuel text delimiter fuel 0 [] [] (by decide) (by omega)] at h
      exact absurd h (by simp)
  · rw [split_never_returns text delimiter hlen fuel] at h
    exact absurd h (by simp)

/-! ## The magic number and the end of the header -/

/-- The magic number that `readImage` extracts is the first token of the file. -/
theorem extractString_eq_firstToken (content : List Char) :
    (extractString (IStream.opened content) []).2 = firstToken content := by
  unfold extractString sentrySkipws firstToken
  by_cases h : content.dropWhile isspace = []
  · simp [IStream.opened, IStream.good, h]
  · simp [IStream.opened, IStream.good, h]

theorem untilNewline_snd_line (l rest : List Char) (hl : '\n' ∉ l) :
    (untilNewline (l ++ '\n' :: rest)).2 = some rest := by
  rw [untilNewline_line l rest hl]

theorem isspace_not_isdigit (c : Char) (h : isspace c = true) : isdigit c = false := by
  cases hd : isdigit c with
  | false => rfl
  | true => rw [isdigit_not_isspace c hd] at h; exact absurd h (by decide)

/-- Extraction of the magic number `P6` followed by white space. -/
theorem extractString_P6_blank (w : Char) (rest : List Char) (str : List Char)
    (hw : isspace w = true) :
    extractString (IStream.opened ('P' :: '6' :: w :: rest)) str
      = (⟨w :: rest, false, false⟩, ['P', '6']) := by
  have h1 : isspace 'P' = false := by decide
  have h2 : isspace '6' = false := by decide
  simp [extractString, sentrySkipws, IStream.opened, IStream.good, List.dropWhile,
    List.takeWhile, h1, h2, hw]

/-- What `readImage` does after the four tokens of a header with `W`, `H`, `M` in
`0..65535`, when these are followed by bytes `junk` without a line feed that do not start
with a digit, a line feed, and the bytes `rest`: everything up to and including the line
feed is skipped and the pixel buffer is filled from `rest`. -/
theorem readImage_ppmTokens (ws1 ws2 ws3 : List Char) (W H M : Nat) (junk rest : List Char)
    (image : Image) (h1 : IsBlank ws1) (h2 : IsBlank ws2) (h3 : IsBlank ws3)
    (hW : W ≤ 65535) (hH : H ≤ 65535) (hM : M ≤ 65535)
    (hjunk : '\n' ∉ junk) (hhead : ∀ c, junk.head? = some c → isdigit c = false) :
    readImage (some (ppmTokens ws1 ws2 ws3 W H M ++ junk ++ '\n' :: rest)) image
      = match (⟨W, H, 24, image.data⟩ : Image).size with
        | .error f => .error f
        | .ok n => .ok (decide (n ≤ rest.length),
            ⟨W, H, 24, some ((rest.take n).map some
              ++ List.replicate (n - (rest.take n).length) none)⟩) := by
  obtain ⟨w1, ws1', rfl⟩ : ∃ a b, ws1 = a :: b := by
    cases ws1 with
    | nil => exact absurd rfl h1.1
    | cons a b => exact ⟨a, b, rfl⟩
  obtain ⟨w2, ws2', rfl⟩ : ∃ a b, ws2 = a :: b := by
    cases ws2 with
    | nil => exact absurd rfl h2.1
    | cons a b => exact ⟨a, b, rfl⟩
  obtain ⟨w3, ws3', rfl⟩ : ∃ a b, ws3 = a :: b := by
    cases ws3 with
    | nil => exact absurd rfl h3.1
    | cons a b => exact ⟨a, b, rfl⟩
  obtain ⟨c, after, hafter, hc⟩ : ∃ c after, junk ++ '\n' :: rest = c :: after ∧
      isdigit c = false := by
    cases junk with
    | nil => exact ⟨'\n', rest, rfl, by decide⟩
    | cons a b => exact ⟨a, b ++ '\n' :: rest, rfl, hhead a rfl⟩
  have hfile : ppmTokens (w1 :: ws1') (w2 :: ws2') (w3 :: ws3') W H M ++ junk ++ '\n' :: rest
      = 'P' :: '6' :: w1 :: (ws1' ++ (decimal W ++ w2 :: (ws2' ++ (decimal H ++
          w3 :: (ws3' ++ (decimal M ++ c :: after)))))) := by
    rw [← hafter]
    simp [ppmTokens]
  have e0 := extractString_P6_blank w1 (ws1' ++ (decimal W ++ w2 :: (ws2' ++ (decimal H ++
    w3 :: (ws3' ++ (decimal M ++ c :: after)))))) [] (h1.2 w1 (by simp))
  have e1 := extractUInt16_decimal (w1 :: ws1') W w2 (ws2' ++ (decimal H ++
    w3 :: (ws3' ++ (decimal M ++ c :: after)))) image.width h1.2 hW
    (isspace_not_isdigit w2 (h2.2 w2 (by simp)))
  have e2 := extractUInt16_decimal (w2 :: ws2') H w3 (ws3' ++ (decimal M ++ c :: after))
    image.height h2.2 hH (isspace_not_isdigit w3 (h3.2 w3 (by simp)))
  have e3 := extractUInt16_decimal (w3 :: ws3') M c after 0 h3.2 hM hc
  have hskip : ignoreLine ⟨c :: after, false, false⟩ = ⟨rest, false, false⟩ := by
    rw [← hafter]
    simp [ignoreLine, IStream.good, untilNewline_snd_line junk rest hjunk]
  simp only [List.cons_append] at e1 e2 e3
  rw [hfile]
  unfold readImage
  dsimp only
  rw [e0]
  dsimp only
  rw [if_neg (by simp), e1]
  dsimp only
  rw [e2]
  dsimp only
  rw [e3]
  dsimp only
  rw [hskip]
  cases hsize : (⟨W, H, 24, image.data⟩ : Image).size with
  | error f => simp [IStream.good]
  | ok n =>
    by_cases hn : n ≤ rest.length
    · simp [IStream.good, readBytes_opened, hn]
    · simp [IStream.good, readBytes_opened, hn]

/-! ## splitInputFile on a manifest of newline-terminated lines -/

theorem linesPerPartition_pos (n : Nat) (p : Int) (hn : 1 ≤ n) (hp : 1 ≤ p) :
    1 ≤ linesPerPartition n p :=
  ceilDiv_pos n _ (by omega) hn

theorem linesPerPartition_le (n : Nat) (p : Int) (hn : 1 ≤ n) (hp : 1 ≤ p) :
    linesPerPartition n p ≤ n :=
  ceilDiv_le_self n _ (by omega)

theorem partitionCount_pos (n : Nat) (p : Int) (hn : 1 ≤ n) (hp : 1 ≤ p) :
    1 ≤ partitionCount n p :=
  ceilDiv_pos n _ (linesPerPartition_pos n p hn hp) hn

theorem partitionCount_le (n : Nat) (p : Int) (hn : 1 ≤ n) (hp : 1 ≤ p) :
    partitionCount n p ≤ min p.toNat n :=
  ceilDiv_le_of_le_mul n _ _ (linesPerPartition_pos n p hn hp)
    (by rw [Nat.mul_comm]; exact le_ceilDiv_mul n (min p.toNat n) (by omega))

/-- The clamp `if (numLines < (uint32_t)numForks) numForks = numLines;` for a positive
request. -/
theorem clamp_eq_min (n : Nat) (p : Int) (hp : 1 ≤ p) (hp32 : p ≤ INT_MAX) :
    (if (n : Int) < toUInt32 p then toInt32 (n : Int) else p) = ((min p.toNat n : Nat) : Int) := by
  rw [toUInt32_of_range p (by omega) hp32]
  split_ifs with h
  · rw [toInt32_of_range _ (by omega) (by omega)]
    congr 1; omega
  · omega

/-- The arithmetic of `splitInputFile` for a file with `N ≥ 1` line feeds and a request
`P ≥ 1`, when the number of lines per partition stays below `INT_MAX`: no fault is
reached before the loop, which runs `partitionCount N P` times with
`linesPerPartition N P` lines per partition. -/
theorem splitInputFile_eq_forkLoop (content : List Char) (canOpen : String → Bool)
    (outputDir : String) (P : Int) (fv : List String)
    (hN : 1 ≤ content.count '\n') (hP : 1 ≤ P) (hP32 : P ≤ INT_MAX)
    (hfit : (linesPerPartition (content.count '\n') P : Int) < INT_MAX) :
    splitInputFile (some content) canOpen outputDir P fv
      = match forkLoop canOpen outputDir (linesPerPartition (content.count '\n') P : Nat)
          (partitionCount (content.count '\n') P) 0 ⟨IStream.opened content, fv, []⟩ with
        | .error f => .error f
        | .ok (ret, st) =>
          .ok ⟨ret, (partitionCount (content.count '\n') P : Nat), st.fileVector, st.written⟩ := by
  generalize hn : content.count '\n' = n at *
  have hLpos := linesPerPartition_pos n P hN hP
  have hKle := partitionCount_le n P hN hP
  have hQpos : 0 < min P.toNat n := by omega
  have h1 : ((min P.toNat n : Nat) : Int) ≠ 0 := by omega
  have hL : toInt32 (((n : Nat) : Int).tdiv ((min P.toNat n : Nat) : Int)
      + (if ((n : Nat) : Int).tmod ((min P.toNat n : Nat) : Int) > 0
          then 1 else 0)) = ((linesPerPartition n P : Nat) : Int) := by
    rw [roundUp_eq_ceilDiv _ _ hQpos]
    exact toInt32_of_range _ (by omega) (by unfold linesPerPartition at hfit; omega)
  have h2 : ((linesPerPartition n P : Nat) : Int) ≠ 0 := by omega
  have hK : toInt32 (((n : Nat) : Int).tdiv ((linesPerPartition n P : Nat) : Int)
      + (if ((n : Nat) : Int).tmod ((linesPerPartition n P : Nat) : Int) > 0
          then 1 else 0)) = ((partitionCount n P : Nat) : Int) := by
    rw [roundUp_eq_ceilDiv _ _ hLpos]
    exact toInt32_of_range _ (by omega) (by unfold partitionCount at hKle; omega)
  simp only [splitInputFile, hn, clamp_eq_min _ P hP hP32, if_neg h1, hL, if_neg h2, hK,
    Int.toNat_ofNat]

/-- What `splitInputFile` does on a manifest of `N ≥ 1` newline-terminated lines for a
request `P ≥ 1`, when the number of lines per partition stays below `INT_MAX` and the
partition files can be opened. -/
theorem splitInputFile_lines (lines : List (List Char)) (canOpen : String → Bool)
    (outputDir : String) (P : Int) (fv : List String)
    (hl : ∀ l ∈ lines, '\n' ∉ l) (hN : 1 ≤ lines.length) (hP : 1 ≤ P) (hP32 : P ≤ INT_MAX)
    (hfit : (linesPerPartition lines.length P : Int) < INT_MAX)
    (hopen : ∀ j, j < partitionCount lines.length P →
      canOpen (partitionPath outputDir j) = true) :
    splitInputFile (some (joinLines lines)) canOpen outputDir P fv
      = .ok ⟨RetCode.SUCCESS, (partitionCount lines.length P : Nat),
          fv ++ (List.range (partitionCount lines.length P)).map (partitionPath outputDir),
          (List.range (partitionCount lines.length P)).map (fun j =>
            (partitionPath outputDir j,
              joinLines (chunk lines (linesPerPartition lines.length P) j)))⟩ := by
  have hc := count_joinLines lines hl
  obtain ⟨s', hs'⟩ := forkLoop_written canOpen outputDir (linesPerPartition lines.length P : Nat)
    (by omega) (partitionCount lines.length P) 0 (IStream.opened (joinLines lines)) lines fv []
    hl (Or.inl rfl) (fun j hj => by simpa using hopen j hj)
  rw [splitInputFile_eq_forkLoop _ _ _ P fv (by omega) hP hP32 (by rw [hc]; exact hfit), hc, hs']
  simp [chunk]

/-! ## Cutting a list into runs -/

theorem chunk_length (lines : List (List Char)) (k j : Nat) :
    (chunk lines k j).length = min k (lines.length - j * k) := by
  simp [chunk]

theorem chunks_flatten (lines : List (List Char)) (k : Nat) (m : Nat) :
    ((List.range m).map (chunk lines k)).flatten = lines.take (m * k) := by
  induction m with
  | zero => simp
  | succ m ih =>
    rw [List.range_succ, List.map_append, List.flatten_append, ih]
    simp only [List.map_cons, List.map_nil, List.flatten_cons, List.flatten_nil,
      List.append_nil, chunk]
    rw [show (m + 1) * k = m * k + k by ring, List.take_add]

theorem chunks_cover (lines : List (List Char)) (k m : Nat) (h : lines.length ≤ m * k) :
    ((List.range m).map (chunk lines k)).flatten = lines := by
  rw [chunks_flatten, List.take_of_length_le h]

theorem joinLines_flatten (parts : List (List (List Char))) :
    joinLines parts.flatten = (parts.map joinLines).flatten := by
  induction parts with
  | nil => rfl
  | cons p ps ih => simp [joinLines_append, ih]

theorem chunk_newlineFree (lines : List (List Char)) (k j : Nat) (hl : ∀ l ∈ lines, '\n' ∉ l) :
    ∀ l ∈ chunk lines k j, '\n' ∉ l :=
  fun l hm => hl l (List.mem_of_mem_drop (List.mem_of_mem_take hm))

theorem lineCount_chunk (lines : List (List Char)) (k j : Nat) (hl : ∀ l ∈ lines, '\n' ∉ l) :
    lineCount (joinLines (chunk lines k j)) = min k (lines.length - j * k) := by
  unfold lineCount
  rw [count_joinLines _ (chunk_newlineFree lines k j hl), chunk_length]

/-- The loop stops with a return code, whatever the files: it reaches no fault as long
as `numLinesPerFork` is not `INT_MAX`. -/
theorem forkLoop_returns (canOpen : String → Bool) (outputDir : String) (numLinesPerFork : Int)
    (hmax : numLinesPerFork ≠ INT_MAX) (todo : Nat) :
    ∀ (i : Nat) (st : SplitState),
      ∃ ret st', forkLoop canOpen outputDir numLinesPerFork todo i st = .ok (ret, st') := by
  induction todo with
  | zero => intro i st; exact ⟨_, _, rfl⟩
  | succ todo ih =>
    intro i st
    by_cases h : canOpen (outputDir ++ "/" ++ inputFileStem ++ toString i) = true
    · obtain ⟨ret, st', hst⟩ := ih (i + 1)
        { input := (copyLines numLinesPerFork.toNat st.input []).1
          fileVector := st.fileVector ++ [outputDir ++ "/" ++ inputFileStem ++ toString i]
          written := st.written ++ [(outputDir ++ "/" ++ inputFileStem ++ toString i,
            (copyLines numLinesPerFork.toNat st.input []).2)] }
      exact ⟨ret, st', by simp only [forkLoop, h, if_true, if_neg hmax]; exact hst⟩
    · exact ⟨_, _, by simp only [forkLoop, h]; rfl⟩

/-- When the loop ends with `SUCCESS` it has appended one path per iteration to the
file list, with consecutive indices. -/
theorem forkLoop_success_fileVector (canOpen : String → Bool) (outputDir : String)
    (numLinesPerFork : Int) (todo : Nat) :
    ∀ (i : Nat) (st st' : SplitState),
      forkLoop canOpen outputDir numLinesPerFork todo i st = .ok (RetCode.SUCCESS, st') →
      st'.fileVector
        = st.fileVector ++ (List.range todo).map (fun j => partitionPath outputDir (i + j)) := by
  induction todo with
  | zero =>
    intro i st st' h
    simp only [forkLoop, Except.ok.injEq, Prod.mk.injEq, true_and] at h
    simp [← h]
  | succ todo ih =>
    intro i st st' h
    by_cases ho : canOpen (outputDir ++ "/" ++ inputFileStem ++ toString i) = true
    · by_cases hmax : numLinesPerFork = INT_MAX
      · simp [forkLoop, ho, hmax] at h
      · simp only [forkLoop, ho, if_true, if_neg hmax] at h
        rw [ih (i + 1) _ st' h, List.range_succ_eq_map, List.map_cons, List.map_map]
        simp only [filepath_eq, List.append_assoc, List.singleton_append, Nat.add_zero]
        congr 2
        apply List.map_congr_left
        intro j _
        simp only [Function.comp]
        rw [show i + 1 + j = i + (j + 1) by omega]
    · simp [forkLoop, ho] at h

/-! ## splitInputFile for any request, once the clamp is known -/

/-- The arithmetic of `splitInputFile` when the clamp leaves `numForks = Q` with
`1 ≤ Q`, for a file with `N ≥ 1` line feeds and `ceil(N / Q)` below `INT_MAX`: the loop
runs `ceil(N / ceil(N / Q))` times with `ceil(N / Q)` lines per partition. -/
theorem splitInputFile_eq_forkLoop_clamped (content : List Char) (canOpen : String → Bool)
    (outputDir : String) (P : Int) (fv : List String) (Q : Nat)
    (hclamp : (if ((content.count '\n' : Nat) : Int) < toUInt32 P
      then toInt32 ((content.count '\n' : Nat) : Int) else P) = (Q : Int))
    (hN : 1 ≤ content.count '\n') (hQ : 1 ≤ Q) (hQ32 : (Q : Int) ≤ INT_MAX)
    (hfit : (ceilDiv (content.count '\n') Q : Int) < INT_MAX) :
    splitInputFile (some content) canOpen outputDir P fv
      = match forkLoop canOpen outputDir (ceilDiv (content.count '\n') Q : Nat)
          (ceilDiv (content.count '\n') (ceilDiv (content.count '\n') Q)) 0
          ⟨IStream.opened content, fv, []⟩ with
        | .error f => .error f
        | .ok (ret, st) =>
          .ok ⟨ret, (ceilDiv (content.count '\n') (ceilDiv (content.count '\n') Q) : Nat),
            st.fileVector, st.written⟩ := by
  generalize hn : content.count '\n' = n at *
  have hLpos : 1 ≤ ceilDiv n Q := ceilDiv_pos n Q hQ hN
  have hKle : ceilDiv n (ceilDiv n Q) ≤ Q :=
    ceilDiv_le_of_le_mul n _ _ hLpos (by rw [Nat.mul_comm]; exact le_ceilDiv_mul n Q hQ)
  have h1 : ((Q : Nat) : Int) ≠ 0 := by omega
  have hL : toInt32 (((n : Nat) : Int).tdiv ((Q : Nat) : Int)
      + (if ((n : Nat) : Int).tmod ((Q : Nat) : Int) > 0 then 1 else 0))
      = ((ceilDiv n Q : Nat) : Int) := by
    rw [roundUp_eq_ceilDiv _ _ hQ]
    exact toInt32_of_range _ (by omega) (by omega)
  have h2 : ((ceilDiv n Q : Nat) : Int) ≠ 0 := by omega
  have hK : toInt32 (((n : Nat) : Int).tdiv ((ceilDiv n Q : Nat) : Int)
      + (if ((n : Nat) : Int).tmod ((ceilDiv n Q : Nat) : Int) > 0 then 1 else 0))
      = ((ceilDiv n (ceilDiv n Q) : Nat) : Int) := by
    rw [roundUp_eq_ceilDiv _ _ hLpos]
    exact toInt32_of_range _ (by omega) (by omega)
  simp only [splitInputFile, hn, hclamp, if_neg h1, hL, if_neg h2, hK, Int.toNat_ofNat]

theorem ceilDiv_self (n : Nat) (hn : 1 ≤ n) : ceilDiv n n = 1 := by
  apply Nat.le_antisymm
  · exact ceilDiv_le_of_le_mul _ _ 1 (by omega) (by omega)
  · exact ceilDiv_pos _ _ (by omega) (by omega)

theorem ceilDiv_one (n : Nat) : ceilDiv n 1 = n := by
  simp [ceilDiv]

/-- When the clamp sets `numForks` to the number `N` of lines of a manifest of
newline-terminated lines, `splitInputFile` writes one partition per line. -/
theorem splitInputFile_one_per_line (lines : List (List Char)) (canOpen : String → Bool)
    (outputDir : String) (P : Int) (fv : List String)
    (hl : ∀ l ∈ lines, '\n' ∉ l) (hN : 1 ≤ lines.length)
    (hN32 : (lines.length : Int) ≤ INT_MAX)
    (hclamp : (if ((lines.length : Nat) : Int) < toUInt32 P
      then toInt32 ((lines.length : Nat) : Int) else P) = (lines.length : Int))
    (hopen : ∀ j, j < lines.length → canOpen (partitionPath outputDir j) = true) :
    splitInputFile (some (joinLines lines)) canOpen outputDir P fv
      = .ok ⟨RetCode.SUCCESS, (lines.length : Nat),
          fv ++ (List.range lines.length).map (partitionPath outputDir),
          (List.range lines.length).map (fun j =>
            (partitionPath outputDir j, joinLines (chunk lines 1 j)))⟩ := by
  have hc := count_joinLines lines hl
  have hstep := splitInputFile_eq_forkLoop_clamped (joinLines lines) canOpen outputDir P fv
    lines.length (by rw [hc]; exact hclamp) (by omega) hN hN32
    (by rw [hc, ceilDiv_self _ hN]; decide)
  rw [hc, ceilDiv_self _ hN, ceilDiv_one] at hstep
  obtain ⟨s', hs'⟩ := forkLoop_written canOpen outputDir ((1 : Nat) : Int) (by decide)
    lines.length 0 (IStream.opened (joinLines lines)) lines fv [] hl (Or.inl rfl)
    (fun j hj => by simpa using hopen j hj)
  rw [hstep, hs']
  simp [chunk]

/-! ## A manifest whose last line is not terminated -/

theorem untilNewline_no_newline (l : List Char) (h : '\n' ∉ l) : untilNewline l = (l, none) := by
  induction l with
  | nil => rfl
  | cons c cs ih =>
    have hc : c ≠ '\n' := fun e => h (by simp [e])
    have hcs : '\n' ∉ cs := fun e => h (by simp [e])
    simp [untilNewline, hc, ih hcs]

theorem getline_line_tail (l : List Char) (ls : List (List Char)) (tail : List Char)
    (hl : '\n' ∉ l) :
    getline (IStream.opened (joinLines (l :: ls) ++ tail))
      = (some l, IStream.opened (joinLines ls ++ tail)) := by
  simp [getline, IStream.opened, IStream.good, joinLines_cons,
    untilNewline_line l (joinLines ls ++ tail) hl]

/-- The unterminated last line is extracted, and the stream is left at the end of the
input with `eofbit` set. -/
theorem getline_tail (tail : List Char) (hne : tail ≠ []) (hnl : '\n' ∉ tail) :
    getline (IStream.opened tail) = (some tail, ⟨[], true, false⟩) := by
  simp [getline, IStream.opened, IStream.good, untilNewline_no_newline tail hnl, hne]

/-- After the end of the input nothing more is copied. -/
theorem copyLines_at_eof (k : Nat) (out : List Char) :
    (copyLines k ⟨[], true, false⟩ out).2 = out := by
  cases k with
  | zero => rfl
  | succ k => simp [copyLines, getline, IStream.good]

theorem copyLines_full_tail (k : Nat) (ls : List (List Char)) (out tail : List Char)
    (hl : ∀ l ∈ ls, '\n' ∉ l) (hk : k ≤ ls.length) :
    copyLines k (IStream.opened (joinLines ls ++ tail)) out
      = (IStream.opened (joinLines (ls.drop k) ++ tail), out ++ joinLines (ls.take k)) := by
  induction k generalizing ls out with
  | zero => simp [copyLines, joinLines_nil]
  | succ k ih =>
    match ls, hk, hl with
    | l :: ls, hk, hl =>
      have h1 : '\n' ∉ l := hl l (by simp)
      have h2 : ∀ x ∈ ls, '\n' ∉ x := fun x hx => hl x (by simp [hx])
      have hk2 : k ≤ ls.length := by simpa using hk
      simp only [copyLines, getline_line_tail l ls tail h1, ih ls _ h2 hk2]
      simp [joinLines_cons]

/-- Asking for more lines than there are terminated ones: they are all copied, and so
is the unterminated last line, to which `endl` adds a line feed. -/
theorem copyLines_short_tail (k : Nat) (ls : List (List Char)) (out tail : List Char)
    (hl : ∀ l ∈ ls, '\n' ∉ l) (hne : tail ≠ []) (hnl : '\n' ∉ tail) (hk : ls.length < k) :
    (copyLines k (IStream.opened (joinLines ls ++ tail)) out).2
      = out ++ joinLines ls ++ tail ++ ['\n'] := by
  induction k generalizing ls out with
  | zero => omega
  | succ k ih =>
    match ls, hk, hl with
    | [], _, _ =>
      simp only [copyLines, joinLines_nil, List.nil_append, getline_tail tail hne hnl,
        copyLines_at_eof, List.append_nil]
    | l :: ls, hk, hl =>
      have h1 : '\n' ∉ l := hl l (by simp)
      have h2 : ∀ x ∈ ls, '\n' ∉ x := fun x hx => hl x (by simp [hx])
      have hk2 : ls.length < k := by simpa using hk
      simp only [copyLines, getline_line_tail l ls tail h1, ih ls _ h2 hk2]
      simp [joinLines_cons]

/-- The first `m` iterations of the outer loop when the manifest still has `m` times
`L` terminated lines: each creates a file with the next `L` lines. -/
theorem forkLoop_full_steps (canOpen : String → Bool) (outputDir : String) (L : Nat)
    (hmax : (L : Int) ≠ INT_MAX) (tail : List Char) (t m : Nat) :
    ∀ (i : Nat) (ls : List (List Char)) (fv : List String) (wr : List (String × List Char)),
      (∀ l ∈ ls, '\n' ∉ l) → m * L ≤ ls.length →
      (∀ j, j < m → canOpen (partitionPath outputDir (i + j)) = true) →
      forkLoop canOpen outputDir (L : Int) (m + t) i
          ⟨IStream.opened (joinLines ls ++ tail), fv, wr⟩
        = forkLoop canOpen outputDir (L : Int) t (i + m)
            ⟨IStream.opened (joinLines (ls.drop (m * L)) ++ tail),
             fv ++ (List.range m).map (fun j => partitionPath outputDir (i + j)),
             wr ++ (List.range m).map (fun j =>
               (partitionPath outputDir (i + j), joinLines (chunk ls L j)))⟩ := by
  induction m with
  | zero => intro i ls fv wr _ _ _; simp
  | succ m ih =>
    intro i ls fv wr hl hlen hopen
    have h0 : canOpen (partitionPath outputDir i) = true := by simpa using hopen 0 (by omega)
    have hL : L ≤ ls.length := by
      have : (m + 1) * L = m * L + L := by ring
      omega
    have hl' : ∀ l ∈ ls.drop L, '\n' ∉ l := fun l hm => hl l (List.mem_of_mem_drop hm)
    have hlen' : m * L ≤ (ls.drop L).length := by
      have : (m + 1) * L = m * L + L := by ring
      rw [List.length_drop]; omega
    have hstep := ih (i + 1) (ls.drop L) (fv ++ [partitionPath outputDir i])
      (wr ++ [(partitionPath outputDir i, joinLines (ls.take L))]) hl' hlen'
      (fun j hj => by
        have := hopen (j + 1) (by omega)
        rwa [show i + 1 + j = i + (j + 1) by omega])
    have hshift : ∀ {α : Type} (f : Nat → α),
        (List.range (m + 1)).map f = f 0 :: (List.range m).map (fun j => f (j + 1)) := by
      intro α f
      rw [List.range_succ_eq_map, List.map_cons, List.map_map]
      rfl
    rw [show m + 1 + t = (m + t) + 1 by omega]
    simp only [forkLoop, filepath_eq, h0, if_true, if_neg hmax, Int.toNat_ofNat,
      copyLines_full_tail L ls [] tail hl hL, List.nil_append]
    rw [hstep, hshift, hshift]
    simp only [chunk, Nat.zero_mul, List.drop_zero, Nat.add_zero, List.append_assoc,
      List.singleton_append, List.drop_drop]
    have e1 : ∀ j, i + 1 + j = i + (j + 1) := fun j => by omega
    have e2 : ∀ j, L + j * L = (j + 1) * L := fun j => by ring
    have e3 : L + m * L = (m + 1) * L := by ring
    have e4 : i + 1 + m = i + (m + 1) := by omega
    simp only [e1, e2, e3, e4]

/-! ## Manifests beyond the range of `int` -/

/-- A manifest of `n` empty lines has `n` line feeds. -/
theorem count_blankLines (n : Nat) :
    (joinLines (List.replicate n ([] : List Char))).count '\n' = n := by
  rw [count_joinLines _ (fun l hl => by rw [List.eq_of_mem_replicate hl]; simp),
    List.length_replicate]

/-- With `2^31` lines and `numForks = 1` the lines per partition wrap to `INT_MIN`, the
partition count becomes `-1` and the loop is skipped. -/
theorem splitInputFile_count_2147483648 (content : List Char)
    (h : content.count '\n' = 2147483648) (canOpen : String → Bool) (outputDir : String)
    (fv : List String) :
    splitInputFile (some content) canOpen outputDir 1 fv
      = .ok ⟨RetCode.SUCCESS, -1, fv, []⟩ := by
  unfold splitInputFile
  simp only [h]
  rfl

/-- With `2^31 + 1` lines and `numForks = 1` the partition count becomes `0`. -/
theorem splitInputFile_count_2147483649 (content : List Char)
    (h : content.count '\n' = 2147483649) (canOpen : String → Bool) (outputDir : String)
    (fv : List String) :
    splitInputFile (some content) canOpen outputDir 1 fv
      = .ok ⟨RetCode.SUCCESS, 0, fv, []⟩ := by
  unfold splitInputFile
  simp only [h]
  rfl

/-- With `2^32` lines and `numForks = 2` the partition count becomes `-2`. -/
theorem splitInputFile_count_4294967296 (content : List Char)
    (h : content.count '\n' = 4294967296) (canOpen : String → Bool) (outputDir : String)
    (fv : List String) :
    splitInputFile (some content) canOpen outputDir 2 fv
      = .ok ⟨RetCode.SUCCESS, -2, fv, []⟩ := by
  unfold splitInputFile
  simp only [h]
  rfl

/-- With `3 * 2^31` lines and `numForks = 3` the partition count becomes `-3`. -/
theorem splitInputFile_count_6442450944 (content : List Char)
    (h : content.count '\n' = 6442450944) (canOpen : String → Bool) (outputDir : String)
    (fv : List String) :
    splitInputFile (some content) canOpen outputDir 3 fv
      = .ok ⟨RetCode.SUCCESS, -3, fv, []⟩ := by
  unfold splitInputFile
  simp only [h]
  rfl

/-! ## Claims about splitInputFile -/

/-- C1, counterexample: on a manifest of `2^31` (empty) newline-terminated lines with
requested parallelism `1`, so that `1 ≤ P ≤ N`, `splitInputFile` returns `SUCCESS`
having written no partition at all: the line counts of the partitions sum to `0`, not to
`N`, and nothing of the manifest is reproduced. -/
theorem splitInputFile_reconstruct_counterexample :
    splitInputFile (some (joinLines (List.replicate 2147483648 [])))
        (fun _ => true) "out" 1 []
      = .ok ⟨RetCode.SUCCESS, -1, [], []⟩ ∧
    (([] : List (String × List Char)).map (fun f => lineCount f.2)).sum
      ≠ (List.replicate 2147483648 ([] : List Char)).length :=
  ⟨splitInputFile_count_2147483648 _ (count_blankLines 2147483648) _ _ _,
    by rw [List.length_replicate]; decide⟩

/-- C1, amended: for every manifest of `N` newline-terminated lines and every requested
parallelism `P` (an `int`) with `1 ≤ P ≤ N`, provided the number of lines per partition
`ceil(N / P)` is below `INT_MAX` and the partition files can be opened, `splitInputFile`
returns `SUCCESS`; the partitions it writes are the files it appends to the file list,
in that order; each holds a non-empty run `p` of lines of the manifest; the runs
concatenated in order are the lines of the manifest; the line counts sum to `N`; and the
contents concatenated in order are the manifest byte for byte. -/
theorem splitInputFile_partitions_reconstruct (lines : List (List Char))
    (canOpen : String → Bool) (outputDir : String) (P : Int) (fv : List String)
    (hl : ∀ l ∈ lines, '\n' ∉ l) (hP : 1 ≤ P) (hPN : P ≤ lines.length) (hP32 : P ≤ INT_MAX)
    (hfit : (linesPerPartition lines.length P : Int) < INT_MAX)
    (hopen : ∀ j, j < partitionCount lines.length P →
      canOpen (partitionPath outputDir j) = true) :
    ∃ (r : SplitResult) (parts : List (List (List Char))), splitInputFile (some (joinLines lines)) canOpen outputDir P fv = .ok r ∧
      r.ret = RetCode.SUCCESS ∧
      r.fileVector = fv ++ r.written.map Prod.fst ∧
      r.written.map Prod.snd = parts.map joinLines ∧
      parts.flatten = lines ∧
      (∀ p ∈ parts, p ≠ []) ∧
      (∀ f ∈ r.written, 1 ≤ lineCount f.2) ∧
      (r.written.map (fun f => lineCount f.2)).sum = lines.length ∧
      (r.written.map Prod.snd).flatten = joinLines lines := by
  have hN : 1 ≤ lines.length := by omega
  have hLpos := linesPerPartition_pos lines.length P hN hP
  have hcover : lines.length ≤ partitionCount lines.length P * linesPerPartition lines.length P :=
    le_ceilDiv_mul _ _ hLpos
  have hlast : (partitionCount lines.length P - 1) * linesPerPartition lines.length P
      < lines.length := pred_ceilDiv_mul_lt _ _ hLpos hN
  have hsize : ∀ j, j < partitionCount lines.length P →
      1 ≤ min (linesPerPartition lines.length P)
        (lines.length - j * linesPerPartition lines.length P) := by
    intro j hj
    have : j * linesPerPartition lines.length P
        ≤ (partitionCount lines.length P - 1) * linesPerPartition lines.length P :=
      Nat.mul_le_mul_right _ (by omega)
    omega
  have hparts := chunks_cover lines _ _ hcover
  refine ⟨_, (List.range (partitionCount lines.length P)).map
      (chunk lines (linesPerPartition lines.length P)),
    splitInputFile_lines lines canOpen outputDir P fv hl hN hP hP32 hfit hopen,
    rfl, ?_, ?_, hparts, ?_, ?_, ?_, ?_⟩
  · simp [Function.comp_def]
  · simp [Function.comp_def]
  · intro p hp
    obtain ⟨j, hj, rfl⟩ := List.mem_map.mp hp
    have := hsize j (List.mem_range.mp hj)
    intro hnil
    have hlen := chunk_length lines (linesPerPartition lines.length P) j
    rw [hnil] at hlen
    simp only [List.length_nil] at hlen
    omega
  · intro f hf
    obtain ⟨j, hj, rfl⟩ := List.mem_map.mp hf
    show 1 ≤ lineCount (joinLines (chunk lines (linesPerPartition lines.length P) j))
    rw [lineCount_chunk _ _ _ hl]
    exact hsize j (List.mem_range.mp hj)
  · have hsum : (((List.range (partitionCount lines.length P)).map
        (chunk lines (linesPerPartition lines.length P))).map List.length).sum
        = lines.length := by
      rw [← List.length_flatten, hparts]
    refine Eq.trans ?_ hsum
    simp only [List.map_map]
    congr 1
    apply List.map_congr_left
    intro j _
    simp only [Function.comp]
    rw [lineCount_chunk _ _ _ hl, chunk_length]
  · rw [← congrArg joinLines hparts, joinLines_flatten]
    simp [Function.comp_def]

/-- C1, witness: a manifest of three lines split for a requested parallelism of two. -/
theorem splitInputFile_partitions_reconstruct_witness :
    (1 : Int) ≤ 2 ∧ (2 : Int) ≤ ([['a'], ['b'], ['c']] : List (List Char)).length ∧
    ∃ (r : SplitResult) (parts : List (List (List Char))), splitInputFile (some (joinLines [['a'], ['b'], ['c']])) (fun _ => true)
        "out" 2 [] = .ok r ∧
      r.ret = RetCode.SUCCESS ∧
      r.fileVector = [] ++ r.written.map Prod.fst ∧
      r.written.map Prod.snd = parts.map joinLines ∧
      parts.flatten = [['a'], ['b'], ['c']] ∧
      (∀ p ∈ parts, p ≠ []) ∧
      (∀ f ∈ r.written, 1 ≤ lineCount f.2) ∧
      (r.written.map (fun f => lineCount f.2)).sum = ([['a'], ['b'], ['c']] : List (List Char)).length ∧
      (r.written.map Prod.snd).flatten = joinLines [['a'], ['b'], ['c']] :=
  ⟨by decide, by decide,
    splitInputFile_partitions_reconstruct [['a'], ['b'], ['c']] (fun _ => true) "out" 2 []
      (by decide) (by decide) (by decide) (by decide) (by decide) (fun _ _ => rfl)⟩

/-- Line counts of the partition files written for runs of `k` lines. -/
theorem written_lineCounts (lines : List (List Char)) (k m : Nat) (outputDir : String)
    (hl : ∀ l ∈ lines, '\n' ∉ l) :
    ((List.range m).map (fun j => (partitionPath outputDir j, joinLines (chunk lines k j)))).map
        (fun f => lineCount f.2)
      = (List.range m).map (fun j => min k (lines.length - j * k)) := by
  rw [List.map_map]
  apply List.map_congr_left
  intro j _
  simp only [Function.comp]
  exact lineCount_chunk lines k j hl

/-- C2, counterexample: on a manifest of `2^31 + 1` newline-terminated lines with
requested parallelism `1` the claim asks for `ceil(N / L) = 1` partition holding all
the lines, but `splitInputFile` sets `numForks` to `0` and writes no partition. -/
theorem splitInputFile_sizes_counterexample :
    splitInputFile (some (joinLines (List.replicate 2147483649 [])))
        (fun _ => true) "out" 1 []
      = .ok ⟨RetCode.SUCCESS, 0, [], []⟩ ∧
    ([] : List (String × List Char)).length
      ≠ ceilDiv 2147483649 (ceilDiv 2147483649 (min (1 : Int).toNat 2147483649)) :=
  ⟨splitInputFile_count_2147483649 _ (count_blankLines 2147483649) _ _ _, by decide⟩

/-- C2, amended: for every manifest of `N ≥ 1` newline-terminated lines and every
requested parallelism `P ≥ 1` (an `int`), with `L = ceil(N / min(P, N))`, provided
`L` is below `INT_MAX` and the partition files can be opened, `splitInputFile` writes
exactly `K = ceil(N / L)` partitions; partition `j` holds the lines `j * L`, ...
of the manifest, `L` of them for every partition but the last, and `N - (K - 1) * L`,
which is between `1` and `L`, for the last.  For `N = 7` and `P = 3` the sizes are
`[3, 3, 1]`. -/
theorem splitInputFile_partition_sizes (lines : List (List Char))
    (canOpen : String → Bool) (outputDir : String) (P : Int) (fv : List String)
    (hl : ∀ l ∈ lines, '\n' ∉ l) (hN : 1 ≤ lines.length) (hP : 1 ≤ P) (hP32 : P ≤ INT_MAX)
    (hfit : (ceilDiv lines.length (min P.toNat lines.length) : Int) < INT_MAX)
    (hopen : ∀ j, j < partitionCount lines.length P →
      canOpen (partitionPath outputDir j) = true) :
    ∃ r : SplitResult, splitInputFile (some (joinLines lines)) canOpen outputDir P fv = .ok r ∧
      r.ret = RetCode.SUCCESS ∧
      r.written.length
        = ceilDiv lines.length (ceilDiv lines.length (min P.toNat lines.length)) ∧
      r.written.map Prod.snd = (List.range (partitionCount lines.length P)).map
        (fun j => joinLines (chunk lines (linesPerPartition lines.length P) j)) ∧
      (∀ j, j + 1 < partitionCount lines.length P →
        (chunk lines (linesPerPartition lines.length P) j).length
          = linesPerPartition lines.length P) ∧
      (chunk lines (linesPerPartition lines.length P) (partitionCount lines.length P - 1)).length
        = lines.length
          - (partitionCount lines.length P - 1) * linesPerPartition lines.length P ∧
      1 ≤ lines.length
          - (partitionCount lines.length P - 1) * linesPerPartition lines.length P ∧
      lines.length - (partitionCount lines.length P - 1) * linesPerPartition lines.length P
        ≤ linesPerPartition lines.length P ∧
      (lines.length = 7 → P = 3 → r.written.map (fun f => lineCount f.2) = [3, 3, 1]) := by
  have hLpos := linesPerPartition_pos lines.length P hN hP
  have hKpos := partitionCount_pos lines.length P hN hP
  have hcover : lines.length ≤ partitionCount lines.length P * linesPerPartition lines.length P :=
    le_ceilDiv_mul _ _ hLpos
  have hlast : (partitionCount lines.length P - 1) * linesPerPartition lines.length P
      < lines.length := pred_ceilDiv_mul_lt _ _ hLpos hN
  have hsplit : (partitionCount lines.length P - 1) * linesPerPartition lines.length P
      + linesPerPartition lines.length P
      = partitionCount lines.length P * linesPerPartition lines.length P := by
    obtain ⟨k, hk⟩ : ∃ k, partitionCount lines.length P = k + 1 :=
      ⟨partitionCount lines.length P - 1, by omega⟩
    rw [hk]; simp; ring
  refine ⟨_, splitInputFile_lines lines canOpen outputDir P fv hl hN hP hP32 hfit hopen,
    rfl, ?_, ?_, ?_, ?_, ?_, ?_, ?_⟩
  · simp [partitionCount, linesPerPartition]
  · simp [Function.comp_def]
  · intro j hj
    rw [chunk_length]
    have : (j + 1) * linesPerPartition lines.length P
        ≤ (partitionCount lines.length P - 1) * linesPerPartition lines.length P :=
      Nat.mul_le_mul_right _ (by omega)
    have e : (j + 1) * linesPerPartition lines.length P
        = j * linesPerPartition lines.length P + linesPerPartition lines.length P := by ring
    omega
  · rw [chunk_length]; omega
  · omega
  · omega
  · intro h7 h3
    dsimp only
    rw [written_lineCounts lines _ _ outputDir hl, h7, h3]
    decide

/-- C2, witness: a manifest of seven lines split for a requested parallelism of three
gives partitions of `3`, `3` and `1` lines. -/
theorem splitInputFile_partition_sizes_witness :
    ∃ r : SplitResult,
      splitInputFile (some (joinLines [['a'], ['b'], ['c'], ['d'], ['e'], ['f'], ['g']]))
        (fun _ => true) "out" 3 [] = .ok r ∧
      r.written.map (fun f => lineCount f.2) = [3, 3, 1] := by
  obtain ⟨r, h, _, _, _, _, _, _, _, h7⟩ := splitInputFile_partition_sizes
    [['a'], ['b'], ['c'], ['d'], ['e'], ['f'], ['g']] (fun _ => true) "out" 3 []
    (by decide) (by decide) (by decide) (by decide) (by decide) (fun _ _ => rfl)
  exact ⟨r, h, h7 rfl rfl⟩

/-- Cutting a list into runs of one element. -/
theorem chunk_one (lines : List (List Char)) :
    (List.range lines.length).map (chunk lines 1) = lines.map (fun l => [l]) := by
  apply List.ext_getElem
  · simp
  · intro i h1 h2
    have hi : i < lines.length := by simpa using h1
    simp only [List.getElem_map, List.getElem_range, chunk, Nat.mul_one]
    rw [List.drop_eq_getElem_cons hi]
    rfl

/-- C3: for every manifest of `N ≥ 1` newline-terminated lines and every requested
parallelism `P > N` (an `int`), when the partition files can be opened, `splitInputFile`
returns `SUCCESS`, sets `numForks` to exactly `N` and writes `N` partitions, the `j`-th
of which holds exactly line `j` of the manifest, so exactly one line each. -/
theorem splitInputFile_more_forks_than_lines (lines : List (List Char))
    (canOpen : String → Bool) (outputDir : String) (P : Int) (fv : List String)
    (hl : ∀ l ∈ lines, '\n' ∉ l) (hN : 1 ≤ lines.length) (hPN : (lines.length : Int) < P)
    (hP32 : P ≤ INT_MAX)
    (hopen : ∀ j, j < lines.length → canOpen (partitionPath outputDir j) = true) :
    ∃ r : SplitResult, splitInputFile (some (joinLines lines)) canOpen outputDir P fv = .ok r ∧
      r.ret = RetCode.SUCCESS ∧
      r.numForks = (lines.length : Int) ∧
      r.written.length = lines.length ∧
      r.written.map Prod.snd = lines.map (fun l => l ++ ['\n']) ∧
      (∀ f ∈ r.written, lineCount f.2 = 1) := by
  have hmin : min P.toNat lines.length = lines.length := by omega
  have hL : linesPerPartition lines.length P = 1 := by
    unfold linesPerPartition
    rw [hmin]
    apply Nat.le_antisymm
    · exact ceilDiv_le_of_le_mul _ _ 1 (by omega) (by omega)
    · exact ceilDiv_pos _ _ (by omega) (by omega)
  have hK : partitionCount lines.length P = lines.length := by
    unfold partitionCount
    rw [hL]
    simp [ceilDiv]
  have hrun := splitInputFile_lines lines canOpen outputDir P fv hl hN (by omega) hP32
    (by rw [hL]; decide) (by rw [hK]; exact hopen)
  rw [hK, hL] at hrun
  have hcontents : ((List.range lines.length).map (fun j =>
      (partitionPath outputDir j, joinLines (chunk lines 1 j)))).map Prod.snd
      = lines.map (fun l => l ++ ['\n']) := by
    have := congrArg (List.map joinLines) (chunk_one lines)
    simp only [List.map_map] at this
    rw [List.map_map]
    refine Eq.trans ?_ (Eq.trans this ?_)
    · rfl
    · apply List.map_congr_left
      intro l _
      simp [joinLines]
  refine ⟨_, hrun, rfl, rfl, by simp, hcontents, ?_⟩
  intro f hf
  have hmem : f.2 ∈ lines.map (fun l => l ++ ['\n']) := by
    rw [← hcontents]
    exact List.mem_map_of_mem Prod.snd hf
  obtain ⟨l, hlm, hfl⟩ := List.mem_map.mp hmem
  rw [← hfl]
  unfold lineCount
  rw [List.count_append, List.count_eq_zero_of_not_mem (hl l hlm)]
  rfl

/-- C3, witness: two lines and a requested parallelism of five. -/
theorem splitInputFile_more_forks_than_lines_witness :
    ((([['a'], ['b']] : List (List Char)).length : Nat) : Int) < 5 ∧
    ∃ r : SplitResult,
      splitInputFile (some (joinLines [['a'], ['b']])) (fun _ => true) "out" 5 [] = .ok r ∧
      r.ret = RetCode.SUCCESS ∧
      r.numForks = ((([['a'], ['b']] : List (List Char)).length : Nat) : Int) ∧
      r.written.length = ([['a'], ['b']] : List (List Char)).length ∧
      r.written.map Prod.snd = ([['a'], ['b']] : List (List Char)).map (fun l => l ++ ['\n']) ∧
      (∀ f ∈ r.written, lineCount f.2 = 1) :=
  ⟨by decide, splitInputFile_more_forks_than_lines [['a'], ['b']] (fun _ => true) "out" 5 []
    (by decide) (by decide) (by decide) (by decide) (fun _ _ => rfl)⟩

/-- C4, counterexample: for a file with `N = 2^32` line feeds and requested parallelism
`P = 2` the value stored back into `numForks` is `-2`, which is below `1`. -/
theorem splitInputFile_numForks_counterexample :
    splitInputFile (some (joinLines (List.replicate 4294967296 [])))
        (fun _ => true) "out" 2 []
      = .ok ⟨RetCode.SUCCESS, -2, [], []⟩ ∧ ¬ ((1 : Int) ≤ -2) :=
  ⟨splitInputFile_count_4294967296 _ (count_blankLines 4294967296) _ _ _, by decide⟩

/-- C4, amended: for every file with `N ≥ 1` line feeds and every requested parallelism
`P ≥ 1` (an `int`) such that `ceil(N / min(P, N))` is below `INT_MAX`, `splitInputFile`
returns, whatever happens to the partition files, and the realized parallelism `P'` it
stores back into `numForks` is `ceil(N / ceil(N / min(P, N)))` and satisfies
`1 ≤ P' ≤ min(P, N)`. -/
theorem splitInputFile_numForks_bounds (content : List Char)
    (canOpen : String → Bool) (outputDir : String) (P : Int) (fv : List String)
    (hN : 1 ≤ content.count '\n') (hP : 1 ≤ P) (hP32 : P ≤ INT_MAX)
    (hfit : (ceilDiv (content.count '\n') (min P.toNat (content.count '\n')) : Int) < INT_MAX) :
    ∃ r : SplitResult, splitInputFile (some content) canOpen outputDir P fv = .ok r ∧
      r.numForks = (ceilDiv (content.count '\n')
        (ceilDiv (content.count '\n') (min P.toNat (content.count '\n'))) : Nat) ∧
      1 ≤ r.numForks ∧ r.numForks ≤ min P (content.count '\n' : Int) := by
  have hKpos := partitionCount_pos _ P hN hP
  have hKle := partitionCount_le _ P hN hP
  obtain ⟨ret, st', hloop⟩ := forkLoop_returns canOpen outputDir
    (linesPerPartition (content.count '\n') P : Nat)
    (by unfold linesPerPartition; omega) (partitionCount (content.count '\n') P) 0
    ⟨IStream.opened content, fv, []⟩
  refine ⟨⟨ret, (partitionCount (content.count '\n') P : Nat), st'.fileVector, st'.written⟩,
    ?_, rfl, ?_, ?_⟩
  · rw [splitInputFile_eq_forkLoop content canOpen outputDir P fv hN hP hP32 hfit, hloop]
  · show (1 : Int) ≤ (partitionCount (content.count '\n') P : Nat)
    omega
  · show ((partitionCount (content.count '\n') P : Nat) : Int) ≤ _
    omega

/-- C4, witness: seven lines and a requested parallelism of five give four
partitions. -/
theorem splitInputFile_numForks_bounds_witness :
    ∃ r : SplitResult,
      splitInputFile (some "a\nb\nc\nd\ne\nf\ng\n".toList) (fun _ => true) "out" 5 [] = .ok r ∧
      r.numForks = 4 ∧ 1 ≤ r.numForks ∧ r.numForks ≤ min 5 7 := by
  obtain ⟨r, h, h1, h2, h3⟩ := splitInputFile_numForks_bounds "a\nb\nc\nd\ne\nf\ng\n".toList
    (fun _ => true) "out" 5 [] (by decide) (by decide) (by decide) (by decide)
  exact ⟨r, h, by rw [h1]; decide, h2, h3⟩

/-- C5: for a manifest without any line feed (`N = 0`), in particular the empty one,
and every requested parallelism `P` (an `int`), `splitInputFile` does not return
`SUCCESS`: the clamp sets `numForks` to `0` and the computation of the lines per
partition, `numLines / numForks`, divides by zero. -/
theorem splitInputFile_no_lines_divides_by_zero (content : List Char)
    (canOpen : String → Bool) (outputDir : String) (P : Int) (fv : List String)
    (hN : content.count '\n' = 0) (hlo : -2147483648 ≤ P) (hhi : P ≤ INT_MAX) :
    splitInputFile (some content) canOpen outputDir P fv = .error Fault.divisionByZero := by
  unfold splitInputFile
  simp only [hN]
  have h0 : (if ((0 : Nat) : Int) < toUInt32 P then toInt32 ((0 : Nat) : Int) else P) = 0 := by
    unfold toUInt32 toInt32
    unfold INT_MAX at hhi
    split_ifs with h
    · rfl
    · omega
  rw [if_pos h0]

/-- C5, failing input: the empty manifest with a requested parallelism of one. -/
theorem splitInputFile_empty_manifest :
    splitInputFile (some []) (fun _ => true) "out" 1 [] = .error Fault.divisionByZero :=
  splitInputFile_no_lines_divides_by_zero [] (fun _ => true) "out" 1 [] (by decide)
    (by decide) (by decide)

/-- C6, counterexample: a manifest of seven lines with requested parallelism three, so
that `1 ≤ P ≤ N`, is cut into partitions of `3`, `3` and `1` lines; the first and the
last differ by two. -/
theorem splitInputFile_even_counterexample :
    (splitInputFile (some "a\nb\nc\nd\ne\nf\ng\n".toList) (fun _ => true) "out" 3
        []).toOption.map (fun r => r.written.map (fun f => lineCount f.2)) = some [3, 3, 1] ∧
    ¬ (3 ≤ 1 + 1) := by
  decide

/-- C6, amended: for every manifest of `N ≥ 1` newline-terminated lines and every
requested parallelism `P` (an `int`) with `1 ≤ P ≤ N`, provided `L = ceil(N / P)` is
below `INT_MAX` and the partition files can be opened, the partitions written by
`splitInputFile` are sized as follows: every partition holds between `1` and `L` lines,
every partition other than the last holds exactly `L` lines, so that any two partitions
other than the last hold the same number of lines; and the line counts of two
partitions differ by at most `L - 1`. -/
theorem splitInputFile_partitions_balanced (lines : List (List Char))
    (canOpen : String → Bool) (outputDir : String) (P : Int) (fv : List String)
    (hl : ∀ l ∈ lines, '\n' ∉ l) (hP : 1 ≤ P) (hPN : P ≤ lines.length) (hP32 : P ≤ INT_MAX)
    (hfit : (ceilDiv lines.length P.toNat : Int) < INT_MAX)
    (hopen : ∀ j, j < partitionCount lines.length P →
      canOpen (partitionPath outputDir j) = true) :
    ∃ r : SplitResult, splitInputFile (some (joinLines lines)) canOpen outputDir P fv = .ok r ∧
      r.ret = RetCode.SUCCESS ∧
      ∀ (i j a b : Nat),
        (r.written.map (fun f => lineCount f.2))[i]? = some a →
        (r.written.map (fun f => lineCount f.2))[j]? = some b →
        1 ≤ a ∧ a ≤ ceilDiv lines.length P.toNat ∧
        (i + 1 < r.written.length → a = ceilDiv lines.length P.toNat) ∧
        (i + 1 < r.written.length → j + 1 < r.written.length → a = b) ∧
        a ≤ b + (ceilDiv lines.length P.toNat - 1) := by
  have hN : 1 ≤ lines.length := by omega
  have hmin : min P.toNat lines.length = P.toNat := by omega
  have hLeq : linesPerPartition lines.length P = ceilDiv lines.length P.toNat := by
    unfold linesPerPartition; rw [hmin]
  have hLpos := linesPerPartition_pos lines.length P hN hP
  have hlast : (partitionCount lines.length P - 1) * linesPerPartition lines.length P
      < lines.length := pred_ceilDiv_mul_lt _ _ hLpos hN
  have hrun := splitInputFile_lines lines canOpen outputDir P fv hl hN hP hP32
    (by rw [hLeq]; exact hfit) hopen
  have hsizes := written_lineCounts lines (linesPerPartition lines.length P)
    (partitionCount lines.length P) outputDir hl
  have hget : ∀ (i a : Nat),
      ((List.range (partitionCount lines.length P)).map (fun j =>
        min (linesPerPartition lines.length P)
          (lines.length - j * linesPerPartition lines.length P)))[i]? = some a →
      i < partitionCount lines.length P ∧
        a = min (linesPerPartition lines.length P)
          (lines.length - i * linesPerPartition lines.length P) := by
    intro i a h
    rw [List.getElem?_map] at h
    rcases Nat.lt_or_ge i (partitionCount lines.length P) with hi | hi
    · rw [List.getElem?_range hi] at h
      simp only [Option.map_some', Option.some.injEq] at h
      exact ⟨hi, h.symm⟩
    · rw [List.getElem?_eq_none (by simpa using hi)] at h
      simp at h
  have hbound : ∀ i, i < partitionCount lines.length P →
      i * linesPerPartition lines.length P
        ≤ (partitionCount lines.length P - 1) * linesPerPartition lines.length P :=
    fun i hi => Nat.mul_le_mul_right _ (by omega)
  have hfull : ∀ i, i + 1 < partitionCount lines.length P →
      min (linesPerPartition lines.length P)
        (lines.length - i * linesPerPartition lines.length P)
        = linesPerPartition lines.length P := by
    intro i hi
    have h1 : (i + 1) * linesPerPartition lines.length P
        ≤ (partitionCount lines.length P - 1) * linesPerPartition lines.length P :=
      Nat.mul_le_mul_right _ (by omega)
    have h2 : (i + 1) * linesPerPartition lines.length P
        = i * linesPerPartition lines.length P + linesPerPartition lines.length P := by ring
    omega
  refine ⟨_, hrun, rfl, ?_⟩
  intro i j a b ha hb
  dsimp only at ha hb ⊢
  rw [hsizes] at ha hb
  obtain ⟨hi, rfl⟩ := hget i a ha
  obtain ⟨hj, rfl⟩ := hget j b hb
  have hbi := hbound i hi
  have hbj := hbound j hj
  rw [← hLeq]
  refine ⟨by omega, by omega, ?_, ?_, by omega⟩
  · intro hi'
    simp only [List.length_map, List.length_range] at hi'
    exact hfull i hi'
  · intro hi' hj'
    simp only [List.length_map, List.length_range] at hi' hj'
    rw [hfull i hi', hfull j hj']

/-- C6, witness: seven lines and a requested parallelism of three. -/
theorem splitInputFile_partitions_balanced_witness :
    ∃ r : SplitResult,
      splitInputFile (some (joinLines [['a'], ['b'], ['c'], ['d'], ['e'], ['f'], ['g']]))
        (fun _ => true) "out" 3 [] = .ok r ∧
      r.ret = RetCode.SUCCESS ∧
      ∀ (i j a b : Nat),
        (r.written.map (fun f => lineCount f.2))[i]? = some a →
        (r.written.map (fun f => lineCount f.2))[j]? = some b →
        1 ≤ a ∧ a ≤ ceilDiv 7 3 ∧
        (i + 1 < r.written.length → a = ceilDiv 7 3) ∧
        (i + 1 < r.written.length → j + 1 < r.written.length → a = b) ∧
        a ≤ b + (ceilDiv 7 3 - 1) :=
  splitInputFile_partitions_balanced
    [['a'], ['b'], ['c'], ['d'], ['e'], ['f'], ['g']] (fun _ => true) "out" 3 []
    (by decide) (by decide) (by decide) (by decide) (by decide) (fun _ _ => rfl)

/-- C7, counterexample: on a manifest of `3 * 2^31` lines with requested parallelism `3`
`splitInputFile` returns `SUCCESS` with `numForks = -3` and appends nothing to an empty
file list, whose length `0` is not the returned `numForks`. -/
theorem splitInputFile_fileVector_counterexample :
    splitInputFile (some (joinLines (List.replicate 6442450944 [])))
        (fun _ => true) "out" 3 []
      = .ok ⟨RetCode.SUCCESS, -3, [], []⟩ ∧
    ((([] : List String).length : Nat) : Int) ≠ -3 :=
  ⟨splitInputFile_count_6442450944 _ (count_blankLines 6442450944) _ _ _, by decide⟩

/-- C7, amended: when `splitInputFile` returns `SUCCESS` with realized parallelism `P'`
it has appended exactly `max(P', 0)` paths to the caller's file list, leaving the
entries already present unchanged, and the `i`-th appended path, `i = 0 .. P' - 1` in
increasing order, is `outputDir + "/input.txt." + decimal(i)`; so when `P' ≥ 0` the
length of the list has grown by `P'`, and with an initially empty list it equals the
returned `numForks`. -/
theorem splitInputFile_success_fileVector (inputStream : Option (List Char))
    (canOpen : String → Bool) (outputDir : String) (P : Int) (fv : List String)
    (r : SplitResult)
    (h : splitInputFile inputStream canOpen outputDir P fv = .ok r)
    (hs : r.ret = RetCode.SUCCESS) :
    r.fileVector = fv ++ (List.range r.numForks.toNat).map
        (fun i => outputDir ++ "/input.txt." ++ toString i) ∧
      (0 ≤ r.numForks → ((r.fileVector.length : Nat) : Int) = fv.length + r.numForks) ∧
      (0 ≤ r.numForks → fv = [] → ((r.fileVector.length : Nat) : Int) = r.numForks) := by
  have key : r.fileVector = fv ++ (List.range r.numForks.toNat).map
      (fun i => outputDir ++ "/input.txt." ++ toString i) := by
    cases inputStream with
    | none =>
      simp only [splitInputFile, Except.ok.injEq] at h
      rw [← h] at hs
      exact absurd hs (by simp)
    | some content =>
      unfold splitInputFile at h
      dsimp only at h
      generalize (if ((content.count '\n' : Nat) : Int) < toUInt32 P
        then toInt32 ((content.count '\n' : Nat) : Int) else P) = nf at h
      by_cases h1 : nf = 0
      · rw [if_pos h1] at h
        exact absurd h (by simp)
      · rw [if_neg h1] at h
        generalize toInt32 (((content.count '\n' : Nat) : Int).tdiv nf
          + (if ((content.count '\n' : Nat) : Int).tmod nf > 0 then 1 else 0)) = lpf at h
        by_cases h2 : lpf = 0
        · rw [if_pos h2] at h
          exact absurd h (by simp)
        · rw [if_neg h2] at h
          generalize toInt32 (((content.count '\n' : Nat) : Int).tdiv lpf
            + (if ((content.count '\n' : Nat) : Int).tmod lpf > 0 then 1 else 0)) = nf2 at h
          split at h
          · exact absurd h (by simp)
          · rename_i ret st hloop
            simp only [Except.ok.injEq] at h
            subst h
            simp only at hs
            subst hs
            have := forkLoop_success_fileVector _ _ _ _ _ _ _ hloop
            simp only [this, Nat.zero_add]
            rfl
  refine ⟨key, ?_, ?_⟩
  · intro h0
    rw [key]
    simp only [List.length_append, List.length_map, List.length_range]
    push_cast
    omega
  · intro h0 hfv
    rw [key, hfv]
    simp only [List.length_append, List.length_map, List.length_range, List.length_nil]
    omega

/-- C7, witness: two lines, a requested parallelism of two and an empty file list. -/
theorem splitInputFile_success_fileVector_witness :
    splitInputFile (some "a\nb\n".toList) (fun _ => true) "out" 2 []
      = .ok ⟨RetCode.SUCCESS, 2, ["out/input.txt.0", "out/input.txt.1"],
          [("out/input.txt.0", "a\n".toList), ("out/input.txt.1", "b\n".toList)]⟩ ∧
    (["out/input.txt.0", "out/input.txt.1"]
        = [] ++ (List.range (2 : Int).toNat).map (fun i => "out" ++ "/input.txt." ++ toString i) ∧
      ((0 : Int) ≤ 2 → (((["out/input.txt.0", "out/input.txt.1"] : List String).length : Nat) : Int)
        = (([] : List String).length : Nat) + 2) ∧
      ((0 : Int) ≤ 2 → ([] : List String) = [] →
        (((["out/input.txt.0", "out/input.txt.1"] : List String).length : Nat) : Int) = 2)) :=
  ⟨rfl, splitInputFile_success_fileVector (some "a\nb\n".toList) (fun _ => true) "out" 2 []
    ⟨RetCode.SUCCESS, 2, ["out/input.txt.0", "out/input.txt.1"],
      [("out/input.txt.0", "a\n".toList), ("out/input.txt.1", "b\n".toList)]⟩ rfl rfl⟩

/-! ## Claims about readImage -/

/-- C8: for every width `W`, height `H` and maximal value `M` in `0..65535` with
`W * H * 3` representable in the `int` arithmetic of `Image::size()`, and every byte
sequence `D` of length exactly `W * H * 3`, `readImage` on the file content `P6`, line
feed, `decimal(W)`, space, `decimal(H)`, space, `decimal(M)`, line feed, `D` returns
`true` and leaves the image with width `W`, height `H`, depth `24` and the pixel data
`D` byte for byte, whatever the image was before; the result does not mention `M`. -/
theorem readImage_wellformed (W H M : Nat) (D : List Char) (image : Image)
    (hW : W ≤ 65535) (hH : H ≤ 65535) (hM : M ≤ 65535)
    (hrep : (W * H * 3 : Int) ≤ INT_MAX) (hD : D.length = W * H * 3) :
    readImage (some ("P6\n".toList ++ decimal W ++ [' '] ++ decimal H ++ [' '] ++ decimal M
        ++ ['\n'] ++ D)) image
      = .ok (true, ⟨W, H, 24, some (D.map some)⟩) := by
  have h := readImage_ppmFile W H M D image hW hH hM
  rw [size_of_fits W H image.data hrep] at h
  unfold ppmFile at h
  rw [h]
  simp [← hD]

/-- C8, witness: the header `P6\n2 2 255\n` followed by twelve bytes. -/
theorem readImage_wellformed_witness :
    ("abcdefghijkl".toList).length = 2 * 2 * 3 ∧
    readImage (some ("P6\n2 2 255\n".toList ++ "abcdefghijkl".toList)) Image.default
      = .ok (true, ⟨2, 2, 24, some ("abcdefghijkl".toList.map some)⟩) :=
  ⟨by decide, readImage_wellformed 2 2 255 "abcdefghijkl".toList Image.default
    (by decide) (by decide) (by decide) (by decide) (by decide)⟩

/-- C9: the well-formed header `P6\n65535 65535 255\n` followed by no byte at all.
`W * H * 3` is positive and more than the bytes that follow, yet `readImage` does not
return `false`: the product `width * height` in `Image::size()` overflows `int` before
the pixel data is read. -/
theorem readImage_truncated_overflow :
    readImage (some "P6\n65535 65535 255\n".toList) Image.default
      = .error Fault.signedOverflow := by
  have h := readImage_ppmFile 65535 65535 255 [] Image.default (by decide) (by decide)
    (by decide)
  have e : "P6\n65535 65535 255\n".toList = ppmFile 65535 65535 255 [] := by decide
  rw [e, h]
  rfl

/-- Truncated pixel data where `Image::size()` is exact: for every well-formed header
`P6\nW H M\n` with `W`, `H`, `M` in `0..65535` and `W * H * 3` representable in `int`,
followed by strictly fewer than `W * H * 3` bytes (so that `W * H * 3 > 0`), `readImage`
returns `false`; the image is left with width `W`, height `H`, depth `24` and a buffer
of `W * H * 3` bytes of which only the bytes present in the file were written. -/
theorem readImage_truncated (W H M : Nat) (D : List Char) (image : Image)
    (hW : W ≤ 65535) (hH : H ≤ 65535) (hM : M ≤ 65535)
    (hrep : (W * H * 3 : Int) ≤ INT_MAX) (hD : D.length < W * H * 3) :
    readImage (some ("P6\n".toList ++ decimal W ++ [' '] ++ decimal H ++ [' '] ++ decimal M
        ++ ['\n'] ++ D)) image
      = .ok (false, ⟨W, H, 24,
          some (D.map some ++ List.replicate (W * H * 3 - D.length) none)⟩) := by
  have h := readImage_ppmFile W H M D image hW hH hM
  rw [size_of_fits W H image.data hrep] at h
  unfold ppmFile at h
  rw [h]
  have hn : ¬ (W * H * 3 ≤ D.length) := by omega
  simp [hn, List.take_of_length_le (by omega : D.length ≤ W * H * 3)]

/-- The header `P6\n2 2 255\n` followed by only ten bytes. -/
theorem readImage_truncated_witness :
    ("abcdefghij".toList).length < 2 * 2 * 3 ∧
    readImage (some ("P6\n2 2 255\n".toList ++ "abcdefghij".toList)) Image.default
      = .ok (false, ⟨2, 2, 24,
          some ("abcdefghij".toList.map some ++ List.replicate (2 * 2 * 3 - 10) none)⟩) :=
  ⟨by decide, readImage_truncated 2 2 255 "abcdefghij".toList Image.default
    (by decide) (by decide) (by decide) (by decide) (by decide)⟩

theorem readBytes_length_le (s : IStream) (n : Nat) : (readBytes s n).2.length ≤ n := by
  unfold readBytes
  split_ifs with h1 h2
  · simp
  · simp only; omega
  · simp

theorem size_congr (a b : Image) (hw : a.width = b.width) (hh : a.height = b.height)
    (hd : a.depth = b.depth) : a.size = b.size := by
  unfold Image.size
  rw [hw, hh, hd]

/-- C10, counterexample: on the header `P6\n1 1 255\n` followed by two bytes instead of
three, `readImage` returns `false` and hands back the image with the decoded width and
height and a partially filled pixel buffer, not the image it was given. -/
theorem readImage_rollback_counterexample :
    readImage (some "P6\n1 1 255\nab".toList) Image.default
      = .ok (false, ⟨1, 1, 24, some [some 'a', some 'b', none]⟩) ∧
    (⟨1, 1, 24, some [some 'a', some 'b', none]⟩ : Image) ≠ Image.default :=
  ⟨rfl, by decide⟩

/-- C10, amended: decoding is all-or-nothing only up to the magic number.  For every
file on which `readImage` returns `false`:
* when the file cannot be opened, or its first token is not `P6`, the caller's `Image`
  is left exactly as it was;
* when the magic number is `P6` and the stream is not good after the extraction of
  width, height and maximal value (header failure), width and height hold what these
  extractions stored, while depth and pixel buffer are as they were;
* when the header is read (pixel-data failure), width and height hold the extracted
  values, depth is `24`, and the pixel buffer is a newly allocated buffer of `size()`
  bytes: it starts with all the bytes that follow the skipped line, fewer than
  `size()`, and the rest was never written; when the end of the file was reached
  while skipping the line, nothing was written. -/
theorem readImage_failure_image (input : Option (List Char)) (image r : Image)
    (h : readImage input image = .ok (false, r)) :
    (input = none → r = image) ∧
    ∀ content, input = some content →
      (firstToken content ≠ ['P', '6'] → r = image) ∧
      (firstToken content = ['P', '6'] →
        ∀ w hh m : IStream × Nat,
          w = extractUInt16 (extractString (IStream.opened content) []).1 image.width →
          hh = extractUInt16 w.1 image.height →
          m = extractUInt16 hh.1 0 →
          (m.1.good = false → r = ⟨w.2, hh.2, image.depth, image.data⟩) ∧
          (m.1.good = true →
            ∃ n, (⟨w.2, hh.2, 24, image.data⟩ : Image).size = .ok n ∧
              r.size = .ok n ∧
              ((ignoreLine m.1).good = true →
                (ignoreLine m.1).buf.length < n ∧
                r = ⟨w.2, hh.2, 24, some ((ignoreLine m.1).buf.map some
                  ++ List.replicate (n - (ignoreLine m.1).buf.length) none)⟩) ∧
              ((ignoreLine m.1).good = false →
                r = ⟨w.2, hh.2, 24, some (List.replicate n none)⟩))) := by
  cases input with
  | none =>
    simp only [readImage, Except.ok.injEq, Prod.mk.injEq, true_and] at h
    exact ⟨fun _ => h.symm, fun content hc => by simp at hc⟩
  | some file =>
    refine ⟨fun hc => by simp at hc, ?_⟩
    intro content hc
    simp only [Option.some.injEq] at hc
    subst hc
    unfold readImage at h
    dsimp only at h
    rw [extractString_eq_firstToken] at h
    by_cases hmagic : firstToken file ≠ ['P', '6']
    · rw [if_pos hmagic] at h
      simp only [Except.ok.injEq, Prod.mk.injEq, true_and] at h
      exact ⟨fun _ => h.symm, fun hm => absurd hm hmagic⟩
    · rw [if_neg hmagic] at h
      refine ⟨fun hm => absurd hm hmagic, ?_⟩
      intro _ w hh m hw hhh hm
      subst hw
      subst hhh
      subst hm
      by_cases hgood : (extractUInt16 (extractUInt16 (extractUInt16
          (extractString (IStream.opened file) []).1 image.width).1 image.height).1 0).1.good
          = true
      · refine ⟨fun hbad => by rw [hgood] at hbad; exact absurd hbad (by decide), fun _ => ?_⟩
        rw [if_neg (by simp [hgood])] at h
        split at h
        · exact absurd h (by simp)
        · rename_i n hsize
          refine ⟨n, hsize, ?_⟩
          by_cases hpix : (!(readBytes (ignoreLine (extractUInt16 (extractUInt16
              (extractUInt16 (extractString (IStream.opened file) []).1 image.width).1
              image.height).1 0).1) n).1.good) = true
          · rw [if_pos hpix] at h
            simp only [Except.ok.injEq, Prod.mk.injEq, true_and] at h
            subst h
            generalize ignoreLine (extractUInt16 (extractUInt16 (extractUInt16
              (extractString (IStream.opened file) []).1 image.width).1
              image.height).1 0).1 = s at hpix ⊢
            refine ⟨?_, ?_, ?_⟩
            · refine ((size_congr _ _ rfl rfl rfl).trans hsize)
            · intro hs
              have hlt : s.buf.length < n := by
                by_contra hcon
                have hle : n ≤ s.buf.length := by omega
                simp [readBytes, hs, hle] at hpix
                simp [IStream.good] at hs hpix
                simp [hs] at hpix
              refine ⟨hlt, ?_⟩
              have hnot : ¬ n ≤ s.buf.length := by omega
              simp [readBytes, hs, hnot]
            · intro hs
              have hs' : ¬ s.good = true := by rw [hs]; decide
              simp [readBytes, hs']
          · rw [if_neg hpix] at h
            simp at h
      · have hbad : (extractUInt16 (extractUInt16 (extractUInt16
            (extractString (IStream.opened file) []).1 image.width).1 image.height).1 0).1.good
            = false := by
          cases hg : (extractUInt16 (extractUInt16 (extractUInt16
            (extractString (IStream.opened file) []).1 image.width).1 image.height).1
            0).1.good with
          | true => exact absurd hg hgood
          | false => rfl
        refine ⟨fun _ => ?_, fun hg => by rw [hbad] at hg; exact absurd hg (by decide)⟩
        rw [if_pos (by simp [hbad])] at h
        simp only [Except.ok.injEq, Prod.mk.injEq, true_and] at h
        exact h.symm

/-- C10, witness: the truncated file of the counterexample is a pixel-data failure, and
the header `P6\n7 9`, which ends before the maximal value, is a header failure that
leaves width `7` and height `9` in the image. -/
theorem readImage_failure_image_witness :
    (readImage (some "P6\n1 1 255\nab".toList) Image.default
        = .ok (false, ⟨1, 1, 24, some [some 'a', some 'b', none]⟩) ∧
      ∃ n, (⟨1, 1, 24, none⟩ : Image).size = .ok n ∧
        "ab".toList.length < n ∧
        (⟨1, 1, 24, some [some 'a', some 'b', none]⟩ : Image)
          = ⟨1, 1, 24, some ("ab".toList.map some
              ++ List.replicate (n - "ab".toList.length) none)⟩) ∧
    (readImage (some "P6\n7 9".toList) Image.default = .ok (false, ⟨7, 9, 24, none⟩) ∧
      (⟨7, 9, 24, none⟩ : Image) = ⟨7, 9, Image.default.depth, Image.default.data⟩) := by
  have h1 : readImage (some "P6\n1 1 255\nab".toList) Image.default
      = .ok (false, ⟨1, 1, 24, some [some 'a', some 'b', none]⟩) := rfl
  have h2 : readImage (some "P6\n7 9".toList) Image.default
      = .ok (false, ⟨7, 9, 24, none⟩) := rfl
  obtain ⟨n, hn, _, hgood, _⟩ :=
    ((((readImage_failure_image _ _ _ h1).2 _ rfl).2 (by decide) _ _ _ rfl rfl rfl).2 rfl)
  have hb := ((((readImage_failure_image _ _ _ h2).2 _ rfl).2 (by decide) _ _ _ rfl rfl rfl).1
    rfl)
  exact ⟨⟨h1, n, hn, (hgood rfl).1, (hgood rfl).2⟩, h2, hb⟩

/-! ## Claims about split -/

/-- C13, counterexample: on a text of `2^32` characters `a`, which has a character other
than the delimiter `,`, the index `unsigned int i` wraps to `0` before it reaches
`str.length()`, so the loop of `split` never ends and `split` returns nothing, whatever
the fuel. -/
theorem split_reference_counterexample :
    'a' ∈ List.replicate 4294967296 'a' ∧ 'a' ≠ ',' ∧
    ¬ ∃ (fuel : Nat) (r : List (List Char)),
        split fuel (List.replicate 4294967296 'a') ',' = some r := by
  refine ⟨List.mem_replicate.mpr ⟨by decide, rfl⟩, by decide, ?_⟩
  rintro ⟨fuel, r, h⟩
  rw [split_never_returns _ _ (List.length_replicate _ _).ge fuel] at h
  exact absurd h (by simp)

/-- C13, amended: for every text shorter than `2^32` characters that contains at least
one character different from the delimiter, `split(text, delimiter)` returns (its loop
ends after `text.length + 1` evaluations of the condition) and the result equals the
reference definition: the text cut at every occurrence of the delimiter, keeping in
order exactly the pieces that are not empty. -/
theorem split_eq_reference (text : List Char) (delimiter : Char) (fuel : Nat)
    (hne : ∃ c ∈ text, c ≠ delimiter) (hlen : text.length < 4294967296)
    (hfuel : text.length < fuel) :
    split fuel text delimiter = some (splitReference text delimiter) := by
  rw [split_eq text delimiter fuel hlen hfuel,
    if_neg (splitReference_ne_nil delimiter text hne)]

/-- C13, witness: `split("a,,b,", ',')` is `["a", "b"]`, the reference tokens. -/
theorem split_eq_reference_witness :
    splitReference "a,,b,".toList ',' = ["a".toList, "b".toList] ∧
    split 6 "a,,b,".toList ',' = some ["a".toList, "b".toList] := by
  have h := split_eq_reference "a,,b,".toList ',' 6 ⟨'a', by decide, by decide⟩
    (by decide) (by decide)
  have hr : splitReference "a,,b,".toList ',' = ["a".toList, "b".toList] := by decide
  exact ⟨hr, hr ▸ h⟩

/-- C14, counterexample: on a text of `2^32` delimiters the loop of `split` never ends,
so `split` returns no sequence at all, in particular none with an element. -/
theorem split_nonempty_counterexample :
    ¬ ∃ (fuel : Nat) (r : List (List Char)),
        split fuel (List.replicate 4294967296 ',') ',' = some r ∧ 1 ≤ r.length := by
  rintro ⟨fuel, r, h, _⟩
  rw [split_never_returns _ _ (List.length_replicate _ _).ge fuel] at h
  exact absurd h (by simp)

/-- C14, amended: for every text shorter than `2^32` characters and every delimiter,
`split` returns a sequence with at least one element; and when the delimiter does not
occur in the text, the empty text included, it returns exactly the one-element sequence
`[text]`. -/
theorem split_at_least_one (text : List Char) (delimiter : Char) (fuel : Nat)
    (hlen : text.length < 4294967296) (hfuel : text.length < fuel) :
    ∃ r, split fuel text delimiter = some r ∧ 1 ≤ r.length ∧
      (delimiter ∉ text → r = [text]) := by
  refine ⟨_, split_eq text delimiter fuel hlen hfuel, ?_, ?_⟩
  · by_cases h : splitReference text delimiter = []
    · simp [h]
    · rw [if_neg h]
      exact List.length_pos.mpr h
  · intro hd
    by_cases hnil : text = []
    · subst hnil
      rfl
    · rw [splitReference_of_not_mem delimiter text hd hnil]
      simp

/-- C14, witness: `split("nodelimiter", ',')` is `["nodelimiter"]`. -/
theorem split_at_least_one_witness :
    ',' ∉ "nodelimiter".toList ∧
    split 12 "nodelimiter".toList ',' = some ["nodelimiter".toList] := by
  obtain ⟨r, h, _, hr⟩ := split_at_least_one "nodelimiter".toList ',' 12 (by decide) (by decide)
  have hd : ',' ∉ "nodelimiter".toList := by decide
  exact ⟨hd, (hr hd) ▸ h⟩

/-- C15: on the text `,,` with the delimiter `,` the delimiter is found, yet no token is
formed, and `split` adds the whole original string: it returns `[",,"]`, a token that
contains the delimiter. -/
theorem split_all_delimiters :
    split 3 ",,".toList ',' = some [",,".toList] ∧ ',' ∈ ",,".toList := by
  decide

/-- C20: `split` is idempotent on its own output: whenever `split(text, delimiter)`
returns, for every token `t` of the result `split(t, delimiter)` returns and is `[t]`,
also for the fallback token of an empty or all-delimiter text. -/
theorem split_idempotent (text : List Char) (delimiter : Char) (fuel : Nat)
    (r : List (List Char)) (h : split fuel text delimiter = some r)
    (t : List Char) (ht : t ∈ r) (fuel' : Nat) (hfuel : t.length < fuel') :
    split fuel' t delimiter = some [t] := by
  obtain ⟨hlen, hr⟩ := split_returns text delimiter fuel r h
  by_cases hnil : splitReference text delimiter = []
  · rw [hr, if_pos hnil, List.mem_singleton] at ht
    subst ht
    rw [split_eq t delimiter fuel' hlen hfuel, if_pos hnil]
  · rw [hr, if_neg hnil] at ht
    obtain ⟨hne, hd, hl⟩ := mem_splitReference delimiter text t ht
    rw [split_eq t delimiter fuel' (by omega) hfuel,
      splitReference_of_not_mem delimiter t hd hne]
    simp

/-- C20, witness: the token `b` of `split("a,,b,", ',')`. -/
theorem split_idempotent_witness :
    split 6 "a,,b,".toList ',' = some ["a".toList, "b".toList] ∧
    split 2 "b".toList ',' = some ["b".toList] :=
  ⟨by decide, split_idempotent "a,,b,".toList ',' 6 ["a".toList, "b".toList] (by decide)
    "b".toList (by decide) 2 (by decide)⟩

/-! ## Claims about the header of readImage and about Image::size -/

/-- C11, counterexample: the tokens `P6`, `1`, `1`, `255` followed by exactly one space
and then the seven bytes `abc\ndef`, of which `W * H * 3 = 3` are needed.  `readImage`
succeeds, but the separator it skips is not that single byte: it skips up to and
including the line feed, and the pixel buffer is `def`, not the bytes `abc` that
immediately follow the space. -/
theorem readImage_separator_counterexample :
    readImage (some "P6\n1 1 255 abc\ndef".toList) Image.default
      = .ok (true, ⟨1, 1, 24, some [some 'd', some 'e', some 'f']⟩) ∧
    [some 'd', some 'e', some 'f'] ≠ "abc".toList.map some :=
  ⟨rfl, by decide⟩

/-- C11, amended: after the max-intensity token `readImage` skips every byte up to and
including the next line feed.  For every file consisting of the tokens `P6`, `W`, `H`,
`M` (separated by white space, `W`, `H`, `M` in `0..65535`, `W * H * 3` representable in
`int`), followed by a line feed, possibly preceded by other bytes `junk` that contain no
line feed and do not start with a digit (a space, a tab, a carriage return), and then
by at least `W * H * 3` bytes, `readImage` succeeds and the pixel buffer equals the
`W * H * 3` bytes that immediately follow that line feed. -/
theorem readImage_skips_line (ws1 ws2 ws3 : List Char) (W H M : Nat) (junk rest : List Char)
    (image : Image) (h1 : IsBlank ws1) (h2 : IsBlank ws2) (h3 : IsBlank ws3)
    (hW : W ≤ 65535) (hH : H ≤ 65535) (hM : M ≤ 65535)
    (hrep : (W * H * 3 : Int) ≤ INT_MAX)
    (hjunk : '\n' ∉ junk) (hhead : ∀ c, junk.head? = some c → isdigit c = false)
    (hlen : W * H * 3 ≤ rest.length) :
    readImage (some (ppmTokens ws1 ws2 ws3 W H M ++ junk ++ '\n' :: rest)) image
      = .ok (true, ⟨W, H, 24, some ((rest.take (W * H * 3)).map some)⟩) := by
  rw [readImage_ppmTokens ws1 ws2 ws3 W H M junk rest image h1 h2 h3 hW hH hM hjunk hhead,
    size_of_fits W H image.data hrep]
  simp [hlen]

/-- C11, witness: a header ended by carriage return and line feed, followed by four
bytes of which three are needed. -/
theorem readImage_skips_line_witness :
    readImage (some "P6\n1 1 255\r\nabcd".toList) Image.default
      = .ok (true, ⟨1, 1, 24, some ("abc".toList.map some)⟩) :=
  readImage_skips_line ['\n'] [' '] [' '] 1 1 255 ['\r'] "abcd".toList Image.default
    ⟨by decide, by decide⟩ ⟨by decide, by decide⟩ ⟨by decide, by decide⟩
    (by decide) (by decide) (by decide) (by decide) (by decide) (by decide) (by decide)

/-- C12: for every file content whose first white-space delimited token is not exactly
the two characters `P6`, `readImage` returns `false` and the caller's `Image` is as it
was. -/
theorem readImage_bad_magic (content : List Char) (image : Image)
    (h : firstToken content ≠ ['P', '6']) :
    readImage (some content) image = .ok (false, image) := by
  unfold readImage
  dsimp only
  rw [extractString_eq_firstToken, if_pos h]

/-- C12, witness: the empty file and files that start with `P5`, `p6` and `P6x`. -/
theorem readImage_bad_magic_witness :
    readImage (some "".toList) Image.default = .ok (false, Image.default) ∧
    readImage (some "P5\n2 2 255\nabcdefghijkl".toList) Image.default
      = .ok (false, Image.default) ∧
    readImage (some "p6\n2 2 255\nabcdefghijkl".toList) Image.default
      = .ok (false, Image.default) ∧
    readImage (some "P6x\n2 2 255\nabcdefghijkl".toList) Image.default
      = .ok (false, Image.default) :=
  ⟨readImage_bad_magic _ _ (by decide), readImage_bad_magic _ _ (by decide),
    readImage_bad_magic _ _ (by decide), readImage_bad_magic _ _ (by decide)⟩

/-- The range in which `Image::size()` is exact: when `width * height * (depth / 8)` is
at most `INT_MAX`. -/
theorem size_exact (image : Image)
    (h : (image.width * image.height * (image.depth / 8) : Int) ≤ INT_MAX)
    (hd : 8 ≤ image.depth) :
    image.size = .ok (image.width * image.height * (image.depth / 8)) := by
  unfold Image.size
  have hd1 : (1 : Int) ≤ ((image.depth / 8 : Nat) : Int) := by
    have : 1 ≤ image.depth / 8 := (Nat.le_div_iff_mul_le (by decide)).mpr (by omega)
    exact_mod_cast this
  have hcast : ((image.depth : Int) / 8) = ((image.depth / 8 : Nat) : Int) := by norm_cast
  rw [hcast] at h ⊢
  have hwh : (0 : Int) ≤ (image.width : Int) * (image.height : Int) := by positivity
  have h1 : ¬ ((image.width : Int) * (image.height : Int) > INT_MAX) := by
    have : (image.width : Int) * (image.height : Int)
        ≤ (image.width : Int) * (image.height : Int) * ((image.depth / 8 : Nat) : Int) :=
      le_mul_of_one_le_right hwh hd1
    unfold INT_MAX at *
    omega
  have h2 : ¬ ((image.width : Int) * (image.height : Int) * ((image.depth / 8 : Nat) : Int)
      > INT_MAX) := by
    unfold INT_MAX at *
    omega
  rw [if_neg h1, if_neg h2]

/-- C16: for the legal width and height `65535` the product `width * height` already
exceeds `INT_MAX`, for depth `24` as for depth `8`: `Image::size()` overflows the `int`
it computes in and does not return `65535 * 65535 * (depth / 8)`. -/
theorem size_overflows :
    (⟨65535, 65535, 24, none⟩ : Image).size = .error Fault.signedOverflow ∧
    (⟨65535, 65535, 8, none⟩ : Image).size = .error Fault.signedOverflow ∧
    (65535 * 65535 : Int) > INT_MAX :=
  ⟨rfl, rfl, by decide⟩

/-! ## Further claims about splitInputFile -/

/-- The contents of the partitions when there is one per line. -/
theorem one_per_line_contents (lines : List (List Char)) (outputDir : String) :
    ((List.range lines.length).map (fun j =>
      (partitionPath outputDir j, joinLines (chunk lines 1 j)))).map Prod.snd
      = lines.map (fun l => l ++ ['\n']) := by
  have := congrArg (List.map joinLines) (chunk_one lines)
  simp only [List.map_map] at this
  rw [List.map_map]
  refine Eq.trans ?_ (Eq.trans this ?_)
  · rfl
  · apply List.map_congr_left
    intro l _
    simp [joinLines]

/-- C18: for every manifest of `N` newline-terminated lines with `1 ≤ N < 2^31` and
every negative requested parallelism `P` (a 32-bit `int`), when the partition files can
be opened, `splitInputFile` reaches no fault and returns `SUCCESS` with `numForks = N`
and `N` partitions, the `j`-th holding exactly line `j`; this is the very result it
gives for every request `P' > N`. -/
theorem splitInputFile_negative_forks (lines : List (List Char)) (canOpen : String → Bool)
    (outputDir : String) (P : Int) (fv : List String)
    (hl : ∀ l ∈ lines, '\n' ∉ l) (hN : 1 ≤ lines.length)
    (hN31 : (lines.length : Int) < 2147483648)
    (hneg : P < 0) (hlo : -2147483648 ≤ P)
    (hopen : ∀ j, j < lines.length → canOpen (partitionPath outputDir j) = true) :
    ∃ r : SplitResult, splitInputFile (some (joinLines lines)) canOpen outputDir P fv = .ok r ∧
      r.ret = RetCode.SUCCESS ∧
      r.numForks = (lines.length : Int) ∧
      r.written.length = lines.length ∧
      r.written.map Prod.snd = lines.map (fun l => l ++ ['\n']) ∧
      (∀ f ∈ r.written, lineCount f.2 = 1) ∧
      (∀ P' : Int, (lines.length : Int) < P' → P' ≤ INT_MAX →
        splitInputFile (some (joinLines lines)) canOpen outputDir P' fv = .ok r) := by
  have hN32 : (lines.length : Int) ≤ INT_MAX := by unfold INT_MAX; omega
  have hclamp : (if ((lines.length : Nat) : Int) < toUInt32 P
      then toInt32 ((lines.length : Nat) : Int) else P) = (lines.length : Int) := by
    unfold toUInt32 toInt32
    split_ifs with h
    · omega
    · omega
  have hrun := splitInputFile_one_per_line lines canOpen outputDir P fv hl hN hN32 hclamp hopen
  have hcontents := one_per_line_contents lines outputDir
  refine ⟨_, hrun, rfl, rfl, by simp, hcontents, ?_, ?_⟩
  · intro f hf
    have hmem : f.2 ∈ lines.map (fun l => l ++ ['\n']) := by
      rw [← hcontents]
      exact List.mem_map_of_mem Prod.snd hf
    obtain ⟨l, hlm, hfl⟩ := List.mem_map.mp hmem
    rw [← hfl]
    unfold lineCount
    rw [List.count_append, List.count_eq_zero_of_not_mem (hl l hlm)]
    rfl
  · intro P' hP' hP'32
    have hclamp' : (if ((lines.length : Nat) : Int) < toUInt32 P'
        then toInt32 ((lines.length : Nat) : Int) else P') = (lines.length : Int) := by
      unfold toUInt32 toInt32
      unfold INT_MAX at hP'32
      split_ifs with h
      · omega
      · omega
    exact splitInputFile_one_per_line lines canOpen outputDir P' fv hl hN hN32 hclamp' hopen

/-- C18, witness: two lines and a requested parallelism of `-1`. -/
theorem splitInputFile_negative_forks_witness :
    ((-1 : Int) < 0) ∧
    ∃ r : SplitResult,
      splitInputFile (some (joinLines [['a'], ['b']])) (fun _ => true) "out" (-1) [] = .ok r ∧
      r.ret = RetCode.SUCCESS ∧
      r.numForks = ((([['a'], ['b']] : List (List Char)).length : Nat) : Int) ∧
      r.written.length = ([['a'], ['b']] : List (List Char)).length ∧
      r.written.map Prod.snd = ([['a'], ['b']] : List (List Char)).map (fun l => l ++ ['\n']) ∧
      (∀ f ∈ r.written, lineCount f.2 = 1) ∧
      (∀ P' : Int, ((([['a'], ['b']] : List (List Char)).length : Nat) : Int) < P' →
        P' ≤ INT_MAX →
        splitInputFile (some (joinLines [['a'], ['b']])) (fun _ => true) "out" P' [] = .ok r) :=
  ⟨by decide, splitInputFile_negative_forks [['a'], ['b']] (fun _ => true) "out" (-1) []
    (by decide) (by decide) (by decide) (by decide) (by decide) (fun _ _ => rfl)⟩

/-- With `2^33` lines and `numForks = 4` the lines per partition `2^31` wrap to
`INT_MIN` and the partition count becomes `-4`. -/
theorem splitInputFile_count_8589934592 (content : List Char)
    (h : content.count '\n' = 8589934592) (canOpen : String → Bool) (outputDir : String)
    (fv : List String) :
    splitInputFile (some content) canOpen outputDir 4 fv
      = .ok ⟨RetCode.SUCCESS, -4, fv, []⟩ := by
  unfold splitInputFile
  simp only [h]
  rfl

/-- C19, counterexample: `P = 4` divides `N = 2^33`, but on a manifest of `2^33` lines
with requested parallelism `4` `splitInputFile` sets `numForks` to `-4` and writes no
partition. -/
theorem splitInputFile_divisible_counterexample :
    (4 : Int) ∣ 8589934592 ∧
    splitInputFile (some (joinLines (List.replicate 8589934592 [])))
        (fun _ => true) "out" 4 []
      = .ok ⟨RetCode.SUCCESS, -4, [], []⟩ ∧ (-4 : Int) ≠ 4 :=
  ⟨by decide, splitInputFile_count_8589934592 _ (count_blankLines 8589934592) _ _ _,
    by decide⟩

/-- C19, amended: for every manifest of `N ≥ 1` newline-terminated lines and every
requested parallelism `P ≥ 1` (an `int`) that divides `N`, provided `N / P` is below
`INT_MAX` and the partition files can be opened, `splitInputFile` returns `SUCCESS`,
leaves `numForks = P` and writes `P` partitions, every one of which holds exactly `N / P`
lines. -/
theorem splitInputFile_divisible (lines : List (List Char)) (canOpen : String → Bool)
    (outputDir : String) (P : Int) (fv : List String)
    (hl : ∀ l ∈ lines, '\n' ∉ l) (hN : 1 ≤ lines.length) (hP : 1 ≤ P)
    (hdvd : P ∣ (lines.length : Int)) (hP32 : P ≤ INT_MAX)
    (hfit : (lines.length : Int) / P < INT_MAX)
    (hopen : ∀ j, j < P.toNat → canOpen (partitionPath outputDir j) = true) :
    ∃ r : SplitResult, splitInputFile (some (joinLines lines)) canOpen outputDir P fv = .ok r ∧
      r.ret = RetCode.SUCCESS ∧
      r.numForks = P ∧
      r.written.length = P.toNat ∧
      (∀ f ∈ r.written, lineCount f.2 = lines.length / P.toNat) := by
  obtain ⟨p, rfl⟩ : ∃ p : Nat, P = (p : Int) := ⟨P.toNat, by omega⟩
  have hp : 1 ≤ p := by omega
  have hdvd' : p ∣ lines.length := Int.natCast_dvd_natCast.mp hdvd
  obtain ⟨q, hq⟩ := hdvd'
  have hqpos : 1 ≤ q := by
    rcases Nat.eq_zero_or_pos q with h0 | h0
    · rw [h0] at hq; omega
    · exact h0
  have hdiv : lines.length / p = q := by
    rw [hq]; exact Nat.mul_div_cancel_left q (by omega)
  have hple : p ≤ lines.length := by
    rw [hq]; exact Nat.le_mul_of_pos_right p hqpos
  have hmin : min (p : Int).toNat lines.length = p := by
    simp only [Int.toNat_ofNat]; omega
  have hL : linesPerPartition lines.length (p : Int) = q := by
    unfold linesPerPartition
    rw [hmin, ceilDiv_eq_div_add _ _ hp, hdiv]
    have : lines.length % p = 0 := by rw [hq]; exact Nat.mul_mod_right p q
    simp [this]
  have hK : partitionCount lines.length (p : Int) = p := by
    unfold partitionCount
    rw [hL, ceilDiv_eq_div_add _ _ hqpos]
    have h1 : lines.length / q = p := by
      rw [hq]; exact Nat.mul_div_cancel p (by omega)
    have h2 : lines.length % q = 0 := by rw [hq]; exact Nat.mul_mod_left p q
    simp [h1, h2]
  have hfit' : ((linesPerPartition lines.length (p : Int) : Nat) : Int) < INT_MAX := by
    rw [hL, ← hdiv, Int.natCast_div]
    exact hfit
  have hrun := splitInputFile_lines lines canOpen outputDir (p : Int) fv hl hN hP hP32 hfit'
    (by rw [hK]; simpa using hopen)
  rw [hK, hL] at hrun
  refine ⟨_, hrun, rfl, rfl, by simp, ?_⟩
  intro f hf
  obtain ⟨j, hj, rfl⟩ := List.mem_map.mp hf
  have hj' : j < p := List.mem_range.mp hj
  show lineCount (joinLines (chunk lines q j)) = lines.length / (p : Int).toNat
  rw [lineCount_chunk _ _ _ hl, Int.toNat_ofNat, hdiv]
  have h1 : (j + 1) * q ≤ p * q := Nat.mul_le_mul_right q (by omega)
  have h2 : (j + 1) * q = j * q + q := by ring
  omega

/-- C19, witness: six lines and a requested parallelism of three give three partitions
of two lines. -/
theorem splitInputFile_divisible_witness :
    (3 : Int) ∣ ((([['a'], ['b'], ['c'], ['d'], ['e'], ['f']] : List (List Char)).length : Nat) : Int) ∧
    ∃ r : SplitResult,
      splitInputFile (some (joinLines [['a'], ['b'], ['c'], ['d'], ['e'], ['f']]))
        (fun _ => true) "out" 3 [] = .ok r ∧
      r.ret = RetCode.SUCCESS ∧
      r.numForks = 3 ∧
      r.written.length = (3 : Int).toNat ∧
      (∀ f ∈ r.written, lineCount f.2
        = ([['a'], ['b'], ['c'], ['d'], ['e'], ['f']] : List (List Char)).length
          / (3 : Int).toNat) :=
  ⟨by decide, splitInputFile_divisible [['a'], ['b'], ['c'], ['d'], ['e'], ['f']]
    (fun _ => true) "out" 3 [] (by decide) (by decide) (by decide) (by decide) (by decide)
    (by decide) (fun _ _ => rfl)⟩

theorem count_joinLines_tail (lines : List (List Char)) (tail : List Char)
    (hl : ∀ l ∈ lines, '\n' ∉ l) (hnl : '\n' ∉ tail) :
    (joinLines lines ++ tail).count '\n' = lines.length := by
  rw [List.count_append, count_joinLines lines hl, List.count_eq_zero_of_not_mem hnl]
  rfl

/-- With `2^32 + 1` line feeds and `numForks = 2` the lines per partition wrap to a
negative `int` and the partition count becomes `-1`. -/
theorem splitInputFile_count_4294967297 (content : List Char)
    (h : content.count '\n' = 4294967297) (canOpen : String → Bool) (outputDir : String)
    (fv : List String) :
    splitInputFile (some content) canOpen outputDir 2 fv
      = .ok ⟨RetCode.SUCCESS, -1, fv, []⟩ := by
  unfold splitInputFile
  simp only [h]
  rfl

/-- C17, counterexample: `N = 2^32 + 1` newline-terminated lines followed by the
unterminated line `x`, with requested parallelism `2`.  `L = ceil(N / 2) = 2^31 + 1`
does not divide `N`, so the claim has the final line written into the last partition,
but `splitInputFile` writes no partition at all. -/
theorem splitInputFile_last_line_counterexample :
    ¬ (ceilDiv 4294967297 (min (2 : Int).toNat 4294967297) ∣ 4294967297) ∧
    splitInputFile (some (joinLines (List.replicate 4294967297 []) ++ ['x']))
        (fun _ => true) "out" 2 []
      = .ok ⟨RetCode.SUCCESS, -1, [], []⟩ :=
  ⟨by decide,
    splitInputFile_count_4294967297 _
      (by
        have h := count_joinLines_tail (List.replicate 4294967297 []) ['x']
          (fun l hl => by rw [List.eq_of_mem_replicate hl]; simp) (by decide)
        rw [List.length_replicate] at h
        exact h) _ _ _⟩

/-- C17, amended: for a manifest made of `N ≥ 1` newline-terminated lines followed by
one non-empty final line without a line feed, and every `P ≥ 1` (an `int`), with
`L = ceil(N / min(P, N))` below `INT_MAX` and `K = ceil(N / L)`, when the partition files
can be opened: `splitInputFile` returns `SUCCESS` with `numForks = K`; the partitions
before the last hold the runs of `L` terminated lines; the last holds the remaining
terminated lines, followed by the final line (with a line feed added) if and only if
`L` does not divide `N`.  When `L` divides `N` the final line is in no partition. -/
theorem splitInputFile_last_line (lines : List (List Char)) (tail : List Char)
    (canOpen : String → Bool) (outputDir : String) (P : Int) (fv : List String)
    (hl : ∀ l ∈ lines, '\n' ∉ l) (hne : tail ≠ []) (hnl : '\n' ∉ tail)
    (hN : 1 ≤ lines.length) (hP : 1 ≤ P) (hP32 : P ≤ INT_MAX)
    (hfit : (linesPerPartition lines.length P : Int) < INT_MAX)
    (hopen : ∀ j, j < partitionCount lines.length P →
      canOpen (partitionPath outputDir j) = true) :
    ∃ r : SplitResult,
      splitInputFile (some (joinLines lines ++ tail)) canOpen outputDir P fv = .ok r ∧
      r.ret = RetCode.SUCCESS ∧
      r.numForks = (partitionCount lines.length P : Nat) ∧
      r.written.map Prod.snd
        = (List.range (partitionCount lines.length P - 1)).map
            (fun j => joinLines (chunk lines (linesPerPartition lines.length P) j))
          ++ [joinLines (chunk lines (linesPerPartition lines.length P)
                (partitionCount lines.length P - 1))
              ++ (if linesPerPartition lines.length P ∣ lines.length then []
                  else tail ++ ['\n'])] := by
  have hc := count_joinLines_tail lines tail hl hnl
  have hLpos := linesPerPartition_pos lines.length P hN hP
  have hKpos := partitionCount_pos lines.length P hN hP
  have hcover : lines.length ≤ partitionCount lines.length P * linesPerPartition lines.length P :=
    le_ceilDiv_mul _ _ hLpos
  have hlast : (partitionCount lines.length P - 1) * linesPerPartition lines.length P
      < lines.length := pred_ceilDiv_mul_lt _ _ hLpos hN
  have hsplit : (partitionCount lines.length P - 1) * linesPerPartition lines.length P
      + linesPerPartition lines.length P
      = partitionCount lines.length P * linesPerPartition lines.length P := by
    obtain ⟨k, hk⟩ : ∃ k, partitionCount lines.length P = k + 1 :=
      ⟨partitionCount lines.length P - 1, by omega⟩
    rw [hk]; simp; ring
  generalize hLdef : linesPerPartition lines.length P = L at *
  generalize hKdef : partitionCount lines.length P = K at *
  have hmax : (L : Int) ≠ INT_MAX := by omega
  have hstep := splitInputFile_eq_forkLoop (joinLines lines ++ tail) canOpen outputDir P fv
    (by omega) hP hP32 (by rw [hc, hLdef]; exact hfit)
  rw [hc, hLdef, hKdef] at hstep
  have hfull := forkLoop_full_steps canOpen outputDir L hmax tail 1 (K - 1) 0 lines fv []
    hl (by omega) (fun j hj => by simpa using hopen j (by omega))
  rw [show K - 1 + 1 = K by omega] at hfull
  have hrestl : ∀ l ∈ lines.drop ((K - 1) * L), '\n' ∉ l :=
    fun l hm => hl l (List.mem_of_mem_drop hm)
  have hrestlen : (lines.drop ((K - 1) * L)).length = lines.length - (K - 1) * L :=
    List.length_drop _ _
  have hopenK : canOpen (partitionPath outputDir (K - 1)) = true := hopen (K - 1) (by omega)
  have hlastc : (copyLines L (IStream.opened (joinLines (lines.drop ((K - 1) * L)) ++ tail))
      []).2 = joinLines (chunk lines L (K - 1))
        ++ (if L ∣ lines.length then [] else tail ++ ['\n']) := by
    by_cases hd : L ∣ lines.length
    · have hfullrest : L ≤ (lines.drop ((K - 1) * L)).length := by
        obtain ⟨q, hq⟩ := hd
        have h1 : (K - 1) * L < L * q := by omega
        have h2 : K - 1 < q := by
          by_contra hcon
          have : L * q ≤ (K - 1) * L := by
            rw [Nat.mul_comm L q]; exact Nat.mul_le_mul_right L (by omega)
          omega
        have h3 : (K - 1 + 1) * L ≤ q * L := Nat.mul_le_mul_right L (by omega)
        have h4 : (K - 1 + 1) * L = (K - 1) * L + L := by ring
        have h5 : q * L = L * q := Nat.mul_comm q L
        omega
      rw [copyLines_full_tail L _ [] tail hrestl hfullrest, if_pos hd]
      simp [chunk]
    · have hshort : (lines.drop ((K - 1) * L)).length < L := by
        by_contra hcon
        have heq : lines.length = K * L := by omega
        exact hd ⟨K, by rw [heq, Nat.mul_comm]⟩
      rw [copyLines_short_tail L _ [] tail hrestl hne hnl hshort, if_neg hd]
      simp [chunk, List.take_of_length_le (Nat.le_of_lt hshort)]
  have hfinal : forkLoop canOpen outputDir (L : Int) 1 (0 + (K - 1))
      ⟨IStream.opened (joinLines (lines.drop ((K - 1) * L)) ++ tail),
       fv ++ (List.range (K - 1)).map (fun j => partitionPath outputDir (0 + j)),
       [] ++ (List.range (K - 1)).map (fun j =>
         (partitionPath outputDir (0 + j), joinLines (chunk lines L j)))⟩
      = .ok (RetCode.SUCCESS,
          ⟨(copyLines L (IStream.opened (joinLines (lines.drop ((K - 1) * L)) ++ tail)) []).1,
           fv ++ (List.range (K - 1)).map (fun j => partitionPath outputDir (0 + j))
             ++ [partitionPath outputDir (K - 1)],
           [] ++ (List.range (K - 1)).map (fun j =>
             (partitionPath outputDir (0 + j), joinLines (chunk lines L j)))
             ++ [(partitionPath outputDir (K - 1),
               (copyLines L (IStream.opened (joinLines (lines.drop ((K - 1) * L)) ++ tail))
                 []).2)]⟩) := by
    simp only [forkLoop, filepath_eq, Nat.zero_add, hopenK, if_true, if_neg hmax,
      Int.toNat_ofNat]
  rw [hfull, hfinal] at hstep
  refine ⟨_, hstep, rfl, rfl, ?_⟩
  simp only [List.nil_append, List.map_append, List.map_map, List.map_cons, List.map_nil,
    hlastc, Nat.zero_add]
  rfl

/-- C17, witness: four terminated lines and the unterminated line `x`.  With a
requested parallelism of three, `L = 2` divides `4`, there are two partitions and `x` is
dropped; with a requested parallelism of two after three terminated lines, `L = 2`
does not divide `3` and `x` ends the last partition. -/
theorem splitInputFile_last_line_witness :
    (∃ r : SplitResult,
      splitInputFile (some (joinLines [['a'], ['b'], ['c'], ['d']] ++ ['x'])) (fun _ => true)
        "out" 3 [] = .ok r ∧ r.ret = RetCode.SUCCESS ∧ r.numForks = 2 ∧
      r.written.map Prod.snd = ["a\nb\n".toList, "c\nd\n".toList]) ∧
    (∃ r : SplitResult,
      splitInputFile (some (joinLines [['a'], ['b'], ['c']] ++ ['x'])) (fun _ => true)
        "out" 2 [] = .ok r ∧ r.ret = RetCode.SUCCESS ∧ r.numForks = 2 ∧
      r.written.map Prod.snd = ["a\nb\n".toList, "c\nx\n".toList]) := by
  obtain ⟨r1, h1, hs1, hn1, hw1⟩ := splitInputFile_last_line [['a'], ['b'], ['c'], ['d']] ['x']
    (fun _ => true) "out" 3 [] (by decide) (by decide) (by decide) (by decide) (by decide)
    (by decide) (by decide) (fun _ _ => rfl)
  obtain ⟨r2, h2, hs2, hn2, hw2⟩ := splitInputFile_last_line [['a'], ['b'], ['c']] ['x']
    (fun _ => true) "out" 2 [] (by decide) (by decide) (by decide) (by decide) (by decide)
    (by decide) (by decide) (fun _ _ => rfl)
  exact ⟨⟨r1, h1, hs1, by rw [hn1]; decide, by rw [hw1]; decide⟩,
    ⟨r2, h2, hs2, by rw [hn2]; decide, by rw [hw2]; decide⟩⟩

end FRVT_MORPH
